import Mathlib

/-!
# PageRank power iteration (`pr_etudiants.c`): embedding and verification

The C program stores a directed graph as a row-oriented sparse matrix,
normalises it in place (`sm_toH`) and runs a fixed number of vector-matrix
products with redistribution of the mass of dangling rows (`v_score`).

Embedding conventions.
* `double` values are read in two ways.  In the exact reading (`v_score`,
  `sm_toH`, `uniformInit`, `pipeline`) they are rationals (`ℚ`), so `x /= nnz`
  is rational division and `1.0 / m` is `1 / m`.  In the double reading
  (`v_scoreD`, `sm_toHD`, `uniformInitD`, `pipelineD`) every operation is
  rounded to IEEE 754 binary64.  The two readings have the same loops and the
  same bounds checks.
* `u_int` sizes and indices are natural numbers; they are taken to lie in the
  range of `int`, which is what the `int` loop counters of the source need.
* Heap arrays are lists.  Every array read or write of the source is a
  bounds-checked list access: a function returns `none` (`Fault.bounds` in the
  text routines) exactly when the source would touch an array outside its
  allocation.
* A `for` loop running an index from `0` to `b - 1` is a monadic left fold over
  `List.range b`.
-/

namespace PageRank

/-- The `VEC` struct: `dim` and the heap array `e`. -/
structure VEC where
  dim : Nat
  e : List ℚ
deriving DecidableEq

/-- The `SROW` struct: number of stored entries, their columns and values. -/
structure SROW where
  nnz : Nat
  col : List Nat
  val : List ℚ
deriving DecidableEq

/-- The `SMAT` struct: `m` rows, `n` columns and the row array. -/
structure SMAT where
  m : Nat
  n : Nat
  row : List SROW
deriving DecidableEq

/-- `v_new`: a vector of dimension `size`, zero-initialised by `calloc`. -/
def v_new (size : Nat) : VEC :=
  { dim := size, e := List.replicate size 0 }

/-- The statement `a[i] += x` on a heap array. -/
def addAt (a : List ℚ) (i : Nat) (x : ℚ) : Option (List ℚ) :=
  match a[i]? with
  | some y => some (a.set i (y + x))
  | none => none

/-- Lines 269-272 of `v_score`: the loop over `sizeVec` for a dangling row
`colonne`, adding `(1.0 / m) * v[colonne]` to every entry of `v_result`. -/
def danglingLoop (m : Nat) (ve : List ℚ) (colonne : Nat) (re : List ℚ) :
    Option (List ℚ) :=
  (List.range m).foldlM
    (fun re sizeVec =>
      match ve[colonne]? with
      | some x => addAt re sizeVec ((1 / (m : ℚ)) * x)
      | none => none)
    re

/-- Lines 277-281 of `v_score`: the loop over `ligne` for a row with stored
entries, adding `v[colonne] * val[ligne]` to `v_result[col[ligne]]`. -/
def sparseLoop (r : SROW) (ve : List ℚ) (colonne : Nat) (re : List ℚ) :
    Option (List ℚ) :=
  (List.range r.nnz).foldlM
    (fun re ligne =>
      match r.col[ligne]?, ve[colonne]?, r.val[ligne]? with
      | some c, some x, some w => addAt re c (x * w)
      | _, _, _ => none)
    re

/-- Lines 264-283 of `v_score`: the loop over `colonne`, accumulating one
vector-matrix product into the scratch vector `re`. -/
def accumulate (M : SMAT) (ve : List ℚ) (re : List ℚ) : Option (List ℚ) :=
  (List.range M.m).foldlM
    (fun re colonne =>
      match M.row[colonne]? with
      | some r =>
        if r.nnz = 0 then danglingLoop M.m ve colonne re
        else sparseLoop r ve colonne re
      | none => none)
    re

/-- Lines 284-288 of `v_score`: copy the scratch vector into `v` and reset it,
for every index below `v_result->dim`. -/
def copyBack (dim : Nat) (s : List ℚ × List ℚ) : Option (List ℚ × List ℚ) :=
  (List.range dim).foldlM
    (fun (s : List ℚ × List ℚ) i =>
      match s.2[i]? with
      | some y => if i < s.1.length then some (s.1.set i y, s.2.set i 0) else none
      | none => none)
    s

/-- One pass of the outer loop of `v_score` on the pair of arrays
`(v->e, v_result->e)`; `v_result->dim` is `M->m`. -/
def iteration (M : SMAT) (s : List ℚ × List ℚ) : Option (List ℚ × List ℚ) :=
  match accumulate M s.1 s.2 with
  | some re => copyBack M.m (s.1, re)
  | none => none

/-- `v_score` in the exact reading: `k` passes (none when `k ≤ 0`) starting
from a fresh scratch vector `v_new(M->m)`; the returned vector is `v` itself,
updated in place.  `v_scoreD` is the same routine with rounded operations. -/
def v_score (v : VEC) (M : SMAT) (k : Int) : Option VEC :=
  match (List.range k.toNat).foldlM (fun s _ => iteration M s) (v.e, (v_new M.m).e) with
  | some s => some { dim := v.dim, e := s.1 }
  | none => none

/-- Lines 298-301 of `sm_toH` in the exact reading: the loop over `j`, dividing
the stored values of one row by the row's `nnz`.  `sm_toH_rowD` is the same
loop with a rounded division. -/
def sm_toH_row (r : SROW) : Option SROW :=
  match (List.range r.nnz).foldlM
      (fun (val : List ℚ) j =>
        match val[j]? with
        | some x => some (val.set j (x / (r.nnz : ℚ)))
        | none => none)
      r.val with
  | some val => some { r with val := val }
  | none => none

/-- `sm_toH`: the loop over `i`, which the source bounds by `H->n`. -/
def sm_toH (H : SMAT) : Option SMAT :=
  match (List.range H.n).foldlM
      (fun (row : List SROW) i =>
        match row[i]? with
        | some r =>
          match sm_toH_row r with
          | some r1 => some (row.set i r1)
          | none => none
        | none => none)
      H.row with
  | some row => some { H with row := row }
  | none => none

/-! ## Data-model predicates and reference definitions -/

/-- Sum of the stored values of a row. -/
def SROW.rowSum (r : SROW) : ℚ := r.val.sum

/-- Sum of the entries of a vector. -/
def VEC.total (v : VEC) : ℚ := v.e.sum

/-- A row respects the data model for `n` columns: `col` and `val` are parallel
arrays of length `nnz` and every stored column is below `n`. -/
def SROW.valid (n : Nat) (r : SROW) : Prop :=
  r.col.length = r.nnz ∧ r.val.length = r.nnz ∧ ∀ c ∈ r.col, c < n

/-- The data-model invariant of a sparse matrix: `m` rows, each valid. -/
def SMAT.valid (M : SMAT) : Prop :=
  M.row.length = M.m ∧ ∀ r ∈ M.row, r.valid M.n

/-- Every stored value is `1.0`. -/
def SMAT.binary (M : SMAT) : Prop :=
  ∀ r ∈ M.row, ∀ x ∈ r.val, x = 1

/-- Every row is dangling or has stored values summing to `1`. -/
def SMAT.stochastic (M : SMAT) : Prop :=
  ∀ r ∈ M.row, r.nnz = 0 ∨ r.rowSum = 1

instance (n : Nat) (r : SROW) : Decidable (r.valid n) := by
  unfold SROW.valid; infer_instance

instance (M : SMAT) : Decidable M.valid := by
  unfold SMAT.valid; infer_instance

instance (M : SMAT) : Decidable M.binary := by
  unfold SMAT.binary; infer_instance

instance (M : SMAT) : Decidable M.stochastic := by
  unfold SMAT.stochastic SROW.rowSum; infer_instance

/-- The two-node graph of the scenario: node 0 points to node 1, node 1 is
dangling. -/
def twoNode : SMAT :=
  { m := 2, n := 2, row := [{ nnz := 1, col := [1], val := [1] }, { nnz := 0, col := [], val := [] }] }

/-- A vector respects the data model: its array has `dim` entries. -/
def VEC.valid (v : VEC) : Prop := v.e.length = v.dim

instance (v : VEC) : Decidable v.valid := by
  unfold VEC.valid; infer_instance

/-- A row with every stored value divided by the row's `nnz`. -/
def SROW.scaled (r : SROW) : SROW :=
  { r with val := r.val.map (fun x => x / (r.nnz : ℚ)) }

/-- Row `i` of a matrix (an empty row outside the array). -/
def SMAT.rowAt (M : SMAT) (i : Nat) : SROW := M.row.getD i ⟨0, [], []⟩

/-- What the pass over row `i` adds to entry `j` of the scratch vector. -/
def contrib (M : SMAT) (ve : List ℚ) (i j : Nat) : ℚ :=
  if (M.rowAt i).nnz = 0 then
    ∑ s in Finset.range M.m, if s = j then (1 / (M.m : ℚ)) * ve.getD i 0 else 0
  else
    ∑ p in Finset.range (M.rowAt i).nnz,
      if (M.rowAt i).col.getD p 0 = j then ve.getD i 0 * (M.rowAt i).val.getD p 0 else 0

/-- The vector produced by one pass, entry by entry. -/
def step (M : SMAT) (ve : List ℚ) : List ℚ :=
  (List.range M.m).map (fun j => ∑ i in Finset.range M.m, contrib M ve i j)

/-- A 3 by 3 transition matrix: node 0 points to nodes 1 and 2 with weight
1/2 each, node 1 points to node 0, node 2 is dangling. -/
def triNode : SMAT :=
  { m := 3, n := 3,
    row := [{ nnz := 2, col := [1, 2], val := [1 / 2, 1 / 2] },
            { nnz := 1, col := [0], val := [1] },
            { nnz := 0, col := [], val := [] }] }

/-- A 3 by 3 binary adjacency matrix with the sparsity pattern of `triNode`. -/
def triAdj : SMAT :=
  { m := 3, n := 3,
    row := [{ nnz := 2, col := [1, 2], val := [1, 1] },
            { nnz := 1, col := [0], val := [1] },
            { nnz := 0, col := [], val := [] }] }

/-- A binary matrix with 3 rows and 2 columns whose last row has two entries. -/
def tallMatrix : SMAT :=
  { m := 3, n := 2,
    row := [{ nnz := 0, col := [], val := [] },
            { nnz := 0, col := [], val := [] },
            { nnz := 2, col := [0, 1], val := [1, 1] }] }

/-- A matrix with 1 row and 2 columns, its only row dangling. -/
def wideMatrix : SMAT :=
  { m := 1, n := 2, row := [{ nnz := 0, col := [], val := [] }] }

/-! ## Construction, text input and output, and the entry point

The text routines work on the characters of the stream.  `fscanf` is modelled
directive by directive: white space in a format skips any run of white-space
characters, an ordinary character must match the next character, `%u` and
`%d` skip white space and read an optionally signed run of decimal digits.
`fprintf` with `%u` or `%d` prints the decimal numeral of a size; the text
printed by `%1.5g` for a stored value is a parameter `g`.  Allocation is taken
to succeed. -/

/-- Ways in which a text routine can fail to return normally. -/
inductive Fault where
  /-- An error message is printed and the process terminates with `exit(-1)`. -/
  | fatal
  /-- An array is accessed outside its allocation. -/
  | bounds
  /-- The step budget given to the `for (;;)` loop ran out. -/
  | fuel
deriving DecidableEq

/-- `sm_new`: `m` rows obtained from `calloc`, then the loop of lines 107-112
resetting every row to `nnz = 0` with absent column and value arrays. -/
def sm_new (m n : Nat) : Option SMAT :=
  match (List.range m).foldlM
      (fun (row : List SROW) i =>
        match row[i]? with
        | some _ => some (row.set i { nnz := 0, col := [], val := [] })
        | none => none)
      (List.replicate m { nnz := 0, col := [], val := [] }) with
  | some row => some { m := m, n := n, row := row }
  | none => none

/-- The white-space characters of `isspace`: space and the controls 9 to 13. -/
def isSpace (c : Char) : Bool :=
  c.toNat = 32 || (9 ≤ c.toNat && c.toNat ≤ 13)

/-- The newline character. -/
def nl : Char := Char.ofNat 10

/-- A white-space directive: drop the leading run of white space. -/
def skipSpace (s : List Char) : List Char := s.dropWhile isSpace

/-- An ordinary-character run of a format: every character must match. -/
def matchLit : List Char → List Char → Option (List Char)
  | [], s => some s
  | _ :: _, [] => none
  | c :: lit, d :: s => if c = d then matchLit lit s else none

/-- Value of a run of decimal digits. -/
def digitsValue (ds : List Char) : Nat :=
  ds.foldl (fun a c => 10 * a + (c.toNat - 48)) 0

/-- The longest non-empty run of decimal digits at the head of the text. -/
def scanDigits (s : List Char) : Option (Nat × List Char) :=
  match s.takeWhile Char.isDigit with
  | [] => none
  | d :: ds => some (digitsValue (d :: ds), s.dropWhile Char.isDigit)

/-- The optional sign in front of a number: `true` for a minus sign. -/
def scanSign (s : List Char) : Bool × List Char :=
  match s with
  | c :: t => if c = '-' then (true, t) else if c = '+' then (false, t) else (false, s)
  | [] => (false, [])

/-- The conversion `%u`: the value of a negated numeral wraps around in
`unsigned int`. -/
def scanU (s : List Char) : Option (Nat × List Char) :=
  match scanDigits (scanSign (skipSpace s)).2 with
  | some (v, rest) =>
    some (if (scanSign (skipSpace s)).1 then (2 ^ 32 - v % 2 ^ 32) % 2 ^ 32 else v, rest)
  | none => none

/-- The conversion `%d`. -/
def scanD (s : List Char) : Option (Int × List Char) :=
  match scanDigits (scanSign (skipSpace s)).2 with
  | some (v, rest) => some (if (scanSign (skipSpace s)).1 then - (v : Int) else (v : Int), rest)
  | none => none

/-- The call `fscanf(fp, " SparseMatrix: %u by %u", &m, &n)` when it assigns
both items; `none` when it returns less than 2. -/
def scanHeader (s : List Char) : Option (Nat × Nat × List Char) :=
  match matchLit ['S', 'p', 'a', 'r', 's', 'e', 'M', 'a', 't', 'r', 'i', 'x', ':'] (skipSpace s) with
  | none => none
  | some s1 =>
    match scanU (skipSpace s1) with
    | none => none
    | some (m, s2) =>
      match matchLit ['b', 'y'] (skipSpace s2) with
      | none => none
      | some s3 =>
        match scanU (skipSpace s3) with
        | none => none
        | some (n, s4) => some (m, n, s4)

/-- The call `fscanf(fp, " row %u:", &r)` when it assigns `r`; `none` when it
returns less than 1.  The closing colon is consumed when present; its absence
does not change the return value. -/
def scanRowLabel (s : List Char) : Option (Nat × List Char) :=
  match matchLit ['r', 'o', 'w'] (skipSpace s) with
  | none => none
  | some s1 =>
    match scanU (skipSpace s1) with
    | none => none
    | some (r, s2) =>
      match s2 with
      | c :: t => if c = ':' then some (r, t) else some (r, s2)
      | [] => some (r, s2)

/-- Lines 184-195 of `sm_input`: the loop `for (;;)` reading column indices
into the buffer `col` until a negative number; returns the buffer, the count
`j` and the remaining text. -/
def readCols : Nat → List Char → List Nat → Nat → Except Fault (List Nat × Nat × List Char)
  | 0, _, _, _ => .error Fault.fuel
  | fuel + 1, s, col, j =>
    match scanD s with
    | none => .error Fault.fatal
    | some (c, rest) =>
      if c < 0 then .ok (col, j, rest)
      else if j < col.length then readCols fuel rest (col.set j c.toNat) (j + 1)
      else .error Fault.bounds

/-- Lines 197-217 of `sm_input`: allocate `j` slots when `j != 0`, set `nnz`,
and copy the first `j` entries of the buffer with value `1.0`. -/
def fillRow (ri : SROW) (col : List Nat) (j : Nat) : Option SROW :=
  (List.range j).foldlM
    (fun (r : SROW) k =>
      match col[k]? with
      | some c =>
        if k < r.col.length ∧ k < r.val.length then
          some { r with col := r.col.set k c, val := r.val.set k 1 }
        else none
      | none => none)
    { nnz := j,
      col := if j ≠ 0 then List.replicate j 0 else ri.col,
      val := if j ≠ 0 then List.replicate j 0 else ri.val }

/-- One pass of the loop over `i` of `sm_input` on the remaining text, the
buffer `col` and the row array.  The label `r` is read and not used. -/
def inputRow (st : List Char × List Nat × List SROW) (i : Nat) :
    Except Fault (List Char × List Nat × List SROW) :=
  match scanRowLabel st.1 with
  | none => .error Fault.fatal
  | some (_, s1) =>
    match st.2.2[i]? with
    | none => .error Fault.bounds
    | some ri =>
      match readCols (s1.length + 1) s1 st.2.1 0 with
      | .error e => .error e
      | .ok (col, j, s2) =>
        match fillRow ri col j with
        | none => .error Fault.bounds
        | some ri1 => .ok (s2, col, st.2.2.set i ri1)

/-- `sm_input` on the characters of the stream. -/
def sm_input (s : List Char) : Except Fault SMAT :=
  match scanHeader s with
  | none => .error Fault.fatal
  | some (m, n, s1) =>
    match sm_new m n with
    | none => .error Fault.bounds
    | some M =>
      match (List.range m).foldlM inputRow (s1, List.replicate n 0, M.row) with
      | .error e => .error e
      | .ok st => .ok { M with row := st.2.2 }

/-- Decimal numeral of a size, as printed by `%u` and `%d`. -/
def dec (k : Nat) : List Char := Nat.toDigits 10 k

/-- Lines 239-242 of `sm_output`: the entries of one row, each printed with
`"%u:%1.5g "`. -/
def outputEntries (g : ℚ → List Char) (r : SROW) (out : List Char) : Option (List Char) :=
  (List.range r.nnz).foldlM
    (fun out j =>
      match r.col[j]?, r.val[j]? with
      | some c, some x => some (out ++ dec c ++ [':'] ++ g x ++ [' '])
      | _, _ => none)
    out

/-- `sm_output`: the characters written to the stream. -/
def sm_output (g : ℚ → List Char) (M : SMAT) : Option (List Char) :=
  (List.range M.m).foldlM
    (fun out i =>
      match M.row[i]? with
      | some r =>
        match outputEntries g r (out ++ ['r', 'o', 'w', ' '] ++ dec i ++ [':', ' ']) with
        | some out1 => some (out1 ++ ['-', '1', nl])
        | none => none
      | none => none)
    (['S', 'p', 'a', 'r', 's', 'e', 'M', 'a', 't', 'r', 'i', 'x', ':', ' '] ++ dec M.m
      ++ [' ', 'b', 'y', ' '] ++ dec M.n ++ [nl])

/-- One row line of a matrix file: `row <label>:`, the column indices, then
the sentinel `-1` and a newline. -/
def renderLine (l : Nat × List Nat) : List Char :=
  ['r', 'o', 'w', ' '] ++ dec l.1 ++ [':'] ++ (l.2.flatMap (fun c => ' ' :: dec c))
    ++ [' ', '-', '1', nl]

/-- A matrix file: the header line followed by the row lines. -/
def renderInput (m n : Nat) (lines : List (Nat × List Nat)) : List Char :=
  ['S', 'p', 'a', 'r', 's', 'e', 'M', 'a', 't', 'r', 'i', 'x', ':', ' '] ++ dec m
    ++ [' ', 'b', 'y', ' '] ++ dec n ++ nl :: lines.flatMap renderLine

/-- The row that a line listing `cols` is read into. -/
def rowOfCols (cols : List Nat) : SROW :=
  { nnz := cols.length, col := cols, val := List.replicate cols.length 1 }

/-- A 1 by 1 binary matrix with the single entry `(0, 0)`. -/
def oneEntry : SMAT :=
  { m := 1, n := 1, row := [{ nnz := 1, col := [0], val := [1] }] }

/-- A well-formed matrix file with header `m by n`: exactly `m` row lines, each
listing at most `n` column indices, every numeral within the range of the C
type it is read into (`unsigned int` for sizes and labels, `int` for columns). -/
def wellFormedInput (m n : Nat) (lines : List (Nat × List Nat)) : Prop :=
  lines.length = m ∧ m < 2 ^ 32 ∧ n < 2 ^ 32 ∧
    ∀ l ∈ lines, l.1 < 2 ^ 32 ∧ l.2.length ≤ n ∧ ∀ c ∈ l.2, c < 2 ^ 31

instance (m n : Nat) (lines : List (Nat × List Nat)) : Decidable (wellFormedInput m n lines) := by
  unfold wellFormedInput; infer_instance

/-- The text `sm_output` writes for the entries of a row. -/
def entriesText (g : ℚ → List Char) (r : SROW) : List Char :=
  (List.range r.nnz).flatMap
    (fun j => dec (r.col.getD j 0) ++ [':'] ++ g (r.val.getD j 0) ++ [' '])

/-- The line `sm_output` writes for row `i`. -/
def rowText (g : ℚ → List Char) (M : SMAT) (i : Nat) : List Char :=
  ['r', 'o', 'w', ' '] ++ dec i ++ [':', ' '] ++ entriesText g (M.rowAt i) ++ ['-', '1', nl]

/-! ## IEEE 754 double arithmetic

The routines above read `double` values as exact rationals.  The definitions
below are the double reading: every arithmetic operation of the source is
rounded to the nearest binary64 value, ties to even, one operation at a time
(no fused multiply-add, no extended precision), with overflow to an infinity
and the usual NaN rules.  The sign of a zero is not kept; the program only
divides by positive counts. -/

/-- An IEEE 754 binary64 value: a finite number, kept as the rational it
denotes, an infinity with its sign, or a NaN. -/
inductive Dbl where
  /-- A finite value. -/
  | fin (q : ℚ)
  /-- An infinity; `neg` is `true` for the negative one. -/
  | inf (neg : Bool)
  /-- A NaN. -/
  | nan
deriving DecidableEq

/-- The quotient `a / b` of two naturals rounded to the nearest natural, ties
to the even one. -/
def roundHalfEven (a b : Nat) : Nat :=
  if 2 * (a % b) < b then a / b
  else if b < 2 * (a % b) then a / b + 1
  else if (a / b) % 2 = 0 then a / b
  else a / b + 1

/-- Halving loop behind `ilog2`; the first argument bounds the number of passes. -/
def ilog2Loop : Nat → Nat → Nat
  | 0, _ => 0
  | fuel + 1, k => if k < 2 then 0 else ilog2Loop fuel (k / 2) + 1

/-- The natural `e` with `2 ^ e ≤ k < 2 ^ (e + 1)`, for positive `k`. -/
def ilog2 (k : Nat) : Nat := ilog2Loop k k

/-- The integer `e` with `2 ^ e ≤ p / d < 2 ^ (e + 1)`, for positive `p` and `d`. -/
def floorLog2 (p d : Nat) : Int :=
  if (if ilog2 d ≤ ilog2 p then d * 2 ^ (ilog2 p - ilog2 d) ≤ p
      else d ≤ p * 2 ^ (ilog2 d - ilog2 p)) then
    (ilog2 p : Int) - (ilog2 d : Int)
  else (ilog2 p : Int) - (ilog2 d : Int) - 1

/-- Exponent of the unit in the last place of the binary64 values around a
positive rational `p / d`: 52 below its binary exponent, which is at least
`-1022` (subnormal range). -/
def ulpExp (p d : Nat) : Int := max (floorLog2 p d) (-1022) - 52

/-- The magnitude `p / d` in units of `2 ^ t`, rounded to the nearest natural,
ties to even. -/
def roundUnits (p d : Nat) (t : Int) : Nat :=
  if 0 ≤ t then roundHalfEven p (d * 2 ^ t.toNat) else roundHalfEven (p * 2 ^ (-t).toNat) d

/-- The rational `n * 2 ^ t`. -/
def scaleUnits (n : Nat) (t : Int) : ℚ :=
  if 0 ≤ t then ((n * 2 ^ t.toNat : Nat) : ℚ) else (n : ℚ) / ((2 ^ (-t).toNat : Nat) : ℚ)

/-- Rounding of an exact result to binary64: nearest value, ties to even, and
an infinity when the rounded magnitude reaches `2 ^ 1024`. -/
def rnd (q : ℚ) : Dbl :=
  if q = 0 then Dbl.fin 0
  else if (2 : ℚ) ^ 1024 ≤ scaleUnits (roundUnits q.num.natAbs q.den (ulpExp q.num.natAbs q.den))
      (ulpExp q.num.natAbs q.den) then Dbl.inf (decide (q < 0))
  else if q < 0 then
    Dbl.fin (- scaleUnits (roundUnits q.num.natAbs q.den (ulpExp q.num.natAbs q.den))
      (ulpExp q.num.natAbs q.den))
  else
    Dbl.fin (scaleUnits (roundUnits q.num.natAbs q.den (ulpExp q.num.natAbs q.den))
      (ulpExp q.num.natAbs q.den))

/-- Addition of doubles. -/
def Dbl.add : Dbl → Dbl → Dbl
  | Dbl.nan, _ => Dbl.nan
  | _, Dbl.nan => Dbl.nan
  | Dbl.inf a, Dbl.inf b => if a = b then Dbl.inf a else Dbl.nan
  | Dbl.inf a, Dbl.fin _ => Dbl.inf a
  | Dbl.fin _, Dbl.inf b => Dbl.inf b
  | Dbl.fin x, Dbl.fin y => rnd (x + y)

/-- Multiplication of doubles. -/
def Dbl.mul : Dbl → Dbl → Dbl
  | Dbl.nan, _ => Dbl.nan
  | _, Dbl.nan => Dbl.nan
  | Dbl.inf a, Dbl.inf b => Dbl.inf (xor a b)
  | Dbl.inf a, Dbl.fin y => if y = 0 then Dbl.nan else Dbl.inf (xor a (decide (y < 0)))
  | Dbl.fin x, Dbl.inf b => if x = 0 then Dbl.nan else Dbl.inf (xor (decide (x < 0)) b)
  | Dbl.fin x, Dbl.fin y => rnd (x * y)

/-- Division of doubles; a zero divisor is taken as `+0`. -/
def Dbl.div : Dbl → Dbl → Dbl
  | Dbl.nan, _ => Dbl.nan
  | _, Dbl.nan => Dbl.nan
  | Dbl.inf _, Dbl.inf _ => Dbl.nan
  | Dbl.inf a, Dbl.fin y => Dbl.inf (xor a (decide (y < 0)))
  | Dbl.fin _, Dbl.inf _ => Dbl.fin 0
  | Dbl.fin x, Dbl.fin y =>
    if y = 0 then (if x = 0 then Dbl.nan else Dbl.inf (decide (x < 0))) else rnd (x / y)

/-- Conversion of an `unsigned int` or `int` count to `double`. -/
def Dbl.ofNat (k : Nat) : Dbl := rnd (k : ℚ)

/-- The `VEC` struct with its entries held as doubles. -/
structure VECD where
  dim : Nat
  e : List Dbl
deriving DecidableEq

/-- The `SROW` struct with its values held as doubles. -/
structure SROWD where
  nnz : Nat
  col : List Nat
  val : List Dbl
deriving DecidableEq

/-- The `SMAT` struct with its values held as doubles. -/
structure SMATD where
  m : Nat
  n : Nat
  row : List SROWD
deriving DecidableEq

/-- `v_new` in doubles. -/
def v_newD (size : Nat) : VECD :=
  { dim := size, e := List.replicate size (Dbl.fin 0) }

/-- The statement `a[i] += x` in doubles: one rounded addition. -/
def addAtD (a : List Dbl) (i : Nat) (x : Dbl) : Option (List Dbl) :=
  match a[i]? with
  | some y => some (a.set i (Dbl.add y x))
  | none => none

/-- Lines 269-272 of `v_score` in doubles: `(1.0 / m) * v[colonne]` is a
rounded division followed by a rounded multiplication. -/
def danglingLoopD (m : Nat) (ve : List Dbl) (colonne : Nat) (re : List Dbl) :
    Option (List Dbl) :=
  (List.range m).foldlM
    (fun re sizeVec =>
      match ve[colonne]? with
      | some x => addAtD re sizeVec (Dbl.mul (Dbl.div (Dbl.fin 1) (Dbl.ofNat m)) x)
      | none => none)
    re

/-- Lines 277-281 of `v_score` in doubles: a rounded product, then a rounded
addition. -/
def sparseLoopD (r : SROWD) (ve : List Dbl) (colonne : Nat) (re : List Dbl) :
    Option (List Dbl) :=
  (List.range r.nnz).foldlM
    (fun re ligne =>
      match r.col[ligne]?, ve[colonne]?, r.val[ligne]? with
      | some c, some x, some w => addAtD re c (Dbl.mul x w)
      | _, _, _ => none)
    re

/-- Lines 264-283 of `v_score` in doubles. -/
def accumulateD (M : SMATD) (ve : List Dbl) (re : List Dbl) : Option (List Dbl) :=
  (List.range M.m).foldlM
    (fun re colonne =>
      match M.row[colonne]? with
      | some r =>
        if r.nnz = 0 then danglingLoopD M.m ve colonne re
        else sparseLoopD r ve colonne re
      | none => none)
    re

/-- Lines 284-288 of `v_score` in doubles. -/
def copyBackD (dim : Nat) (s : List Dbl × List Dbl) : Option (List Dbl × List Dbl) :=
  (List.range dim).foldlM
    (fun (s : List Dbl × List Dbl) i =>
      match s.2[i]? with
      | some y =>
        if i < s.1.length then some (s.1.set i y, s.2.set i (Dbl.fin 0)) else none
      | none => none)
    s

/-- One pass of the outer loop of `v_score` in doubles. -/
def iterationD (M : SMATD) (s : List Dbl × List Dbl) : Option (List Dbl × List Dbl) :=
  match accumulateD M s.1 s.2 with
  | some re => copyBackD M.m (s.1, re)
  | none => none

/-- `v_score` in doubles. -/
def v_scoreD (v : VECD) (M : SMATD) (k : Int) : Option VECD :=
  match (List.range k.toNat).foldlM (fun s _ => iterationD M s) (v.e, (v_newD M.m).e) with
  | some s => some { dim := v.dim, e := s.1 }
  | none => none

/-- Lines 298-301 of `sm_toH` in doubles: `val[j] /= nnz` converts `nnz` to
`double` and rounds the quotient. -/
def sm_toH_rowD (r : SROWD) : Option SROWD :=
  match (List.range r.nnz).foldlM
      (fun (val : List Dbl) j =>
        match val[j]? with
        | some x => some (val.set j (Dbl.div x (Dbl.ofNat r.nnz)))
        | none => none)
      r.val with
  | some val => some { r with val := val }
  | none => none

/-- `sm_toH` in doubles. -/
def sm_toHD (H : SMATD) : Option SMATD :=
  match (List.range H.n).foldlM
      (fun (row : List SROWD) i =>
        match row[i]? with
        | some r =>
          match sm_toH_rowD r with
          | some r1 => some (row.set i r1)
          | none => none
        | none => none)
      H.row with
  | some row => some { H with row := row }
  | none => none

/-- A row as held in memory: every value replaced by the nearest double. -/
def SROW.toDbl (r : SROW) : SROWD :=
  { nnz := r.nnz, col := r.col, val := r.val.map rnd }

/-- A matrix as held in memory: every value replaced by the nearest double. -/
def SMAT.toDbl (M : SMAT) : SMATD :=
  { m := M.m, n := M.n, row := M.row.map SROW.toDbl }

/-- A vector as held in memory: every entry replaced by the nearest double. -/
def VEC.toDbl (v : VEC) : VECD :=
  { dim := v.dim, e := v.e.map rnd }

/-- Every number of the list is a binary64 value. -/
def allDoubles (l : List ℚ) : Prop := ∀ x ∈ l, rnd x = Dbl.fin x

instance (l : List ℚ) : Decidable (allDoubles l) := by
  unfold allDoubles; infer_instance

/-- The sum of the entries accumulated in a `double`, in index order. -/
def VECD.total (v : VECD) : Dbl := v.e.foldl Dbl.add (Dbl.fin 0)

theorem foldlM_range_succ {σ : Type} (body : σ → Nat → Option σ) (n : Nat) (s : σ) :
    (List.range (n + 1)).foldlM body s
      = ((List.range n).foldlM body s).bind (fun t => body t n) := by
  rw [List.range_succ, List.foldlM_append]
  cases h : (List.range n).foldlM body s <;> simp

theorem set_append_cons {α : Type} (A B : List α) (x y : α) (n : Nat) (hn : A.length = n) :
    (A ++ x :: B).set n y = (A ++ [y]) ++ B := by
  subst hn
  induction A with
  | nil => simp
  | cons a A ih => simp

theorem getElem?_append_cons {α : Type} (A B : List α) (x : α) (n : Nat) (hn : A.length = n) :
    (A ++ x :: B)[n]? = some x := by
  subst hn
  induction A with
  | nil => simp
  | cons a A ih => simpa using ih

theorem foldlM_range_update {α : Type} (body : List α → Nat → Option (List α))
    (g : α → α) (l : List α)
    (hb : ∀ (a : List α) (i : Nat) (x : α), x ∈ l → a[i]? = some x →
      body a i = some (a.set i (g x)))
    (n : Nat) (hn : n ≤ l.length) :
    (List.range n).foldlM body l = some ((l.take n).map g ++ l.drop n) := by
  induction n with
  | zero => simp
  | succ n ih =>
    have hlt : n < l.length := hn
    rw [foldlM_range_succ, ih (Nat.le_of_lt hlt)]
    have hlen : ((l.take n).map g).length = n := by simp [Nat.le_of_lt hlt]
    have hd : l.drop n = l[n] :: l.drop (n + 1) := List.drop_eq_getElem_cons hlt
    have ht : l.take (n + 1) = l.take n ++ [l[n]] := by
      rw [List.take_succ, List.getElem?_eq_getElem hlt]; rfl
    simp only [Option.some_bind]
    rw [hd, ht]
    have hget := getElem?_append_cons ((l.take n).map g) (l.drop (n + 1)) l[n] n hlen
    have hset := set_append_cons ((l.take n).map g) (l.drop (n + 1)) l[n] (g l[n]) n hlen
    rw [hb _ n l[n] (List.getElem_mem hlt) hget, hset]
    simp only [List.map_append, List.map_cons, List.map_nil]


theorem sm_toH_row_eq (r : SROW) (h : r.val.length = r.nnz) :
    sm_toH_row r = some r.scaled := by
  unfold sm_toH_row
  rw [foldlM_range_update _ (fun x => x / (r.nnz : ℚ)) r.val
    (fun a i x _ hx => by simp [hx]) r.nnz (le_of_eq h.symm)]
  simp [SROW.scaled, ← h]

theorem sm_toH_eq (H : SMAT) (hv : H.valid) (hn : H.n ≤ H.m) :
    sm_toH H = some { H with row := (H.row.take H.n).map SROW.scaled ++ H.row.drop H.n } := by
  unfold sm_toH
  rw [foldlM_range_update _ SROW.scaled H.row
    (fun a i x hx hax => by simp [hax, sm_toH_row_eq x (hv.2 x hx).2.1]) H.n
    (by rw [hv.1]; exact hn)]

theorem sm_toH_square (H : SMAT) (hv : H.valid) (hsq : H.m = H.n) :
    sm_toH H = some { H with row := H.row.map SROW.scaled } := by
  rw [sm_toH_eq H hv (le_of_eq hsq.symm)]
  have h : H.row.length = H.n := by rw [hv.1, hsq]
  simp [← h]

theorem sum_map_div (l : List ℚ) (c : ℚ) : (l.map (fun x => x / c)).sum = l.sum / c := by
  induction l with
  | nil => simp
  | cons a l ih => simp [ih, add_div]

theorem sum_all_one (l : List ℚ) (h : ∀ x ∈ l, x = 1) : l.sum = (l.length : ℚ) := by
  induction l with
  | nil => simp
  | cons a l ih =>
    have ha : a = 1 := h a (List.mem_cons_self a l)
    have hl : ∀ x ∈ l, x = 1 := fun x hx => h x (List.mem_cons_of_mem a hx)
    simp [ih hl, ha, add_comm]

theorem scaled_rowSum (r : SROW) (hlen : r.val.length = r.nnz) (hb : ∀ x ∈ r.val, x = 1)
    (hpos : 0 < r.nnz) : r.scaled.rowSum = 1 := by
  unfold SROW.rowSum SROW.scaled
  simp only
  rw [sum_map_div, sum_all_one r.val hb, hlen]
  have : (r.nnz : ℚ) ≠ 0 := by exact_mod_cast (Nat.pos_iff_ne_zero.1 hpos)
  exact div_self this


theorem addAt_spec (a : List ℚ) (i : Nat) (x : ℚ) (hi : i < a.length) :
    ∃ b, addAt a i x = some b ∧ b.length = a.length ∧
      ∀ j, b.getD j 0 = a.getD j 0 + (if i = j then x else 0) := by
  refine ⟨a.set i (a[i] + x), ?_, by simp, ?_⟩
  · simp [addAt, List.getElem?_eq_getElem hi]
  · intro j
    by_cases hij : i = j
    · subst hij
      simp [List.getD_eq_getElem?_getD, List.getElem?_set, hi, List.getElem?_eq_getElem hi]
    · simp [List.getD_eq_getElem?_getD, List.getElem?_set, hij]

/-- A loop whose every pass adds `c i j` to entry `j` of an array of length `L`
adds the sum of the `c i j` over all passes. -/
theorem foldlM_additive (body : List ℚ → Nat → Option (List ℚ)) (c : Nat → Nat → ℚ)
    (L n : Nat)
    (hb : ∀ (a : List ℚ) (i : Nat), i < n → a.length = L →
      ∃ b, body a i = some b ∧ b.length = L ∧ ∀ j, b.getD j 0 = a.getD j 0 + c i j)
    (re : List ℚ) (hre : re.length = L) :
    ∃ b, (List.range n).foldlM body re = some b ∧ b.length = L ∧
      ∀ j, b.getD j 0 = re.getD j 0 + ∑ i in Finset.range n, c i j := by
  induction n with
  | zero => exact ⟨re, by simp, hre, by simp⟩
  | succ n ih =>
    obtain ⟨b, hb1, hb2, hb3⟩ := ih (fun a i hi ha => hb a i (Nat.lt_succ_of_lt hi) ha)
    obtain ⟨d, hd1, hd2, hd3⟩ := hb b n (Nat.lt_succ_self n) hb2
    refine ⟨d, ?_, hd2, ?_⟩
    · rw [foldlM_range_succ, hb1]; simpa using hd1
    · intro j
      rw [hd3 j, hb3 j, Finset.sum_range_succ, add_assoc]


theorem getElem?_eq_some_getD {α : Type} (l : List α) (i : Nat) (d : α) (h : i < l.length) :
    l[i]? = some (l.getD i d) := by
  simp [List.getD_eq_getElem?_getD, List.getElem?_eq_getElem h]

theorem danglingLoop_spec (m : Nat) (ve : List ℚ) (colonne : Nat) (re : List ℚ)
    (hc : colonne < ve.length) (hre : re.length = m) :
    ∃ b, danglingLoop m ve colonne re = some b ∧ b.length = m ∧
      ∀ j, b.getD j 0 = re.getD j 0 +
        ∑ s in Finset.range m, if s = j then (1 / (m : ℚ)) * ve.getD colonne 0 else 0 := by
  unfold danglingLoop
  apply foldlM_additive _ (fun s j => if s = j then (1 / (m : ℚ)) * ve.getD colonne 0 else 0) m m _ re hre
  intro a s hs ha
  rw [getElem?_eq_some_getD ve colonne 0 hc]
  obtain ⟨b, h1, h2, h3⟩ := addAt_spec a s ((1 / (m : ℚ)) * ve.getD colonne 0) (by omega)
  exact ⟨b, h1, by omega, h3⟩

theorem sparseLoop_spec (L : Nat) (r : SROW) (hr : r.valid L) (ve : List ℚ) (colonne : Nat)
    (re : List ℚ) (hc : colonne < ve.length) (hre : re.length = L) :
    ∃ b, sparseLoop r ve colonne re = some b ∧ b.length = L ∧
      ∀ j, b.getD j 0 = re.getD j 0 +
        ∑ p in Finset.range r.nnz,
          if r.col.getD p 0 = j then ve.getD colonne 0 * r.val.getD p 0 else 0 := by
  obtain ⟨h1, h2, h3⟩ := hr
  unfold sparseLoop
  apply foldlM_additive _
    (fun p j => if r.col.getD p 0 = j then ve.getD colonne 0 * r.val.getD p 0 else 0)
    L r.nnz _ re hre
  intro a p hp ha
  have hpc : p < r.col.length := by omega
  have hpv : p < r.val.length := by omega
  rw [getElem?_eq_some_getD ve colonne 0 hc, getElem?_eq_some_getD r.col p 0 hpc,
    getElem?_eq_some_getD r.val p 0 hpv]
  have hlt : r.col.getD p 0 < a.length := by
    rw [ha]
    apply h3
    rw [List.getD_eq_getElem _ _ hpc]
    exact List.getElem_mem hpc
  obtain ⟨b, hb1, hb2, hb3⟩ := addAt_spec a (r.col.getD p 0) (ve.getD colonne 0 * r.val.getD p 0) hlt
  exact ⟨b, hb1, by omega, hb3⟩

theorem rowAt_of_lt (M : SMAT) (i : Nat) (h : i < M.row.length) :
    M.row[i]? = some (M.rowAt i) ∧ M.rowAt i ∈ M.row := by
  unfold SMAT.rowAt
  refine ⟨getElem?_eq_some_getD _ _ _ h, ?_⟩
  rw [List.getD_eq_getElem _ _ h]
  exact List.getElem_mem h

theorem accumulate_spec (M : SMAT) (hv : M.valid) (hsq : M.m = M.n) (ve re : List ℚ)
    (hve : ve.length = M.m) (hre : re.length = M.m) :
    ∃ b, accumulate M ve re = some b ∧ b.length = M.m ∧
      ∀ j, b.getD j 0 = re.getD j 0 + ∑ i in Finset.range M.m, contrib M ve i j := by
  unfold accumulate
  apply foldlM_additive _ (contrib M ve) M.m M.m _ re hre
  intro a i hi ha
  obtain ⟨hrow, hmem⟩ := rowAt_of_lt M i (by rw [hv.1]; exact hi)
  rw [hrow]
  simp only [contrib]
  by_cases hz : (M.rowAt i).nnz = 0
  · simp only [hz, if_true]
    exact danglingLoop_spec M.m ve i a (by omega) ha
  · simp only [hz, if_false]
    exact sparseLoop_spec M.m (M.rowAt i) (by rw [hsq]; exact hv.2 _ hmem) ve i a (by omega) ha

theorem copyBack_spec (L : Nat) (ve re : List ℚ) (hve : ve.length = L) (hre : re.length = L) :
    copyBack L (ve, re) = some (re, List.replicate L 0) := by
  have key : ∀ n, n ≤ L → (List.range n).foldlM
      (fun (s : List ℚ × List ℚ) i =>
        match s.2[i]? with
        | some y => if i < s.1.length then some (s.1.set i y, s.2.set i 0) else none
        | none => none) (ve, re)
      = some (re.take n ++ ve.drop n, List.replicate n 0 ++ re.drop n) := by
    intro n
    induction n with
    | zero => simp
    | succ n ih =>
      intro hn
      have hlt : n < L := hn
      rw [foldlM_range_succ, ih (Nat.le_of_lt hlt)]
      have hdv : ve.drop n = ve[n] :: ve.drop (n + 1) := List.drop_eq_getElem_cons (by omega)
      have hdr : re.drop n = re[n] :: re.drop (n + 1) := List.drop_eq_getElem_cons (by omega)
      have htr : re.take (n + 1) = re.take n ++ [re[n]] := by
        rw [List.take_succ, List.getElem?_eq_getElem (by omega)]; rfl
      have hl1 : (re.take n).length = n := by simp; omega
      have hl2 : (List.replicate n (0 : ℚ)).length = n := by simp
      have g2 := getElem?_append_cons (List.replicate n (0 : ℚ)) (re.drop (n + 1)) re[n] n hl2
      have s2 := set_append_cons (List.replicate n (0 : ℚ)) (re.drop (n + 1)) re[n] 0 n hl2
      have s1 := set_append_cons (re.take n) (ve.drop (n + 1)) ve[n] re[n] n hl1
      simp only [Option.some_bind]
      rw [hdv, hdr, g2]
      have hlen : n < (re.take n ++ ve[n] :: ve.drop (n + 1)).length := by
        simp; omega
      simp only [hlen, if_true, s1, s2, htr]
      simp [List.replicate_succ']
  unfold copyBack
  rw [key L (le_refl L)]
  simp [← hre, ← hve, hre.trans hve.symm]


theorem step_length (M : SMAT) (ve : List ℚ) : (step M ve).length = M.m := by
  simp [step]

theorem step_getD (M : SMAT) (ve : List ℚ) (j : Nat) (hj : j < M.m) :
    (step M ve).getD j 0 = ∑ i in Finset.range M.m, contrib M ve i j := by
  have h : j < (step M ve).length := by rw [step_length]; exact hj
  rw [List.getD_eq_getElem _ _ h]
  simp [step]

theorem ext_getD (a b : List ℚ) (L : Nat) (ha : a.length = L) (hb : b.length = L)
    (h : ∀ j, j < L → a.getD j 0 = b.getD j 0) : a = b := by
  apply List.ext_getElem (ha.trans hb.symm)
  intro j h1 h2
  have := h j (by omega)
  rwa [List.getD_eq_getElem _ _ h1, List.getD_eq_getElem _ _ h2] at this

theorem getD_replicate_zero (L j : Nat) : (List.replicate L (0 : ℚ)).getD j 0 = 0 := by
  by_cases h : j < L
  · rw [List.getD_eq_getElem _ _ (by simpa using h)]; simp
  · rw [List.getD_eq_default _ _ (by simpa using h)]

theorem iteration_spec (M : SMAT) (hv : M.valid) (hsq : M.m = M.n) (ve : List ℚ)
    (hve : ve.length = M.m) :
    iteration M (ve, List.replicate M.m 0) = some (step M ve, List.replicate M.m 0) := by
  obtain ⟨b, h1, h2, h3⟩ :=
    accumulate_spec M hv hsq ve (List.replicate M.m 0) hve (by simp)
  have hb : b = step M ve := by
    apply ext_getD b (step M ve) M.m h2 (step_length M ve)
    intro j hj
    rw [h3 j, getD_replicate_zero, zero_add, step_getD M ve j hj]
  subst hb
  simp only [iteration, h1]
  exact copyBack_spec M.m ve (step M ve) hve h2

theorem iterate_step_length (M : SMAT) (ve : List ℚ) (hve : ve.length = M.m) (k : Nat) :
    ((step M)^[k] ve).length = M.m := by
  cases k with
  | zero => simpa using hve
  | succ k => rw [Function.iterate_succ_apply']; exact step_length M _

theorem passes_spec (M : SMAT) (hv : M.valid) (hsq : M.m = M.n) (ve : List ℚ)
    (hve : ve.length = M.m) (k : Nat) :
    (List.range k).foldlM (fun s (_ : Nat) => iteration M s) (ve, List.replicate M.m 0)
      = some ((step M)^[k] ve, List.replicate M.m 0) := by
  induction k with
  | zero => simp
  | succ k ih =>
    rw [foldlM_range_succ, ih, Option.some_bind,
      iteration_spec M hv hsq _ (iterate_step_length M ve hve k), Function.iterate_succ_apply']

/-- Closed form of `v_score`: `k` applications of `step` to the entries. -/
theorem v_score_eq (v : VEC) (M : SMAT) (k : Int) (hv : M.valid) (hsq : M.m = M.n)
    (hve : v.e.length = M.m) :
    v_score v M k = some { dim := v.dim, e := (step M)^[k.toNat] v.e } := by
  unfold v_score v_new
  simp only
  rw [passes_spec M hv hsq v.e hve k.toNat]


theorem contrib_dangling (M : SMAT) (ve : List ℚ) (i j : Nat) (hz : (M.rowAt i).nnz = 0)
    (hj : j < M.m) : contrib M ve i j = ve.getD i 0 / (M.m : ℚ) := by
  simp only [contrib, hz, if_true]
  rw [Finset.sum_ite_eq' (Finset.range M.m) j, if_pos (Finset.mem_range.2 hj)]
  ring

theorem list_sum_eq_range (l : List ℚ) :
    l.sum = ∑ i in Finset.range l.length, l.getD i 0 := by
  induction l with
  | nil => simp
  | cons a l ih =>
    rw [List.length_cons, Finset.sum_range_succ', List.sum_cons, ih, add_comm]
    simp

/-- Total mass that row `i` sends out in one pass. -/
theorem sum_contrib_row (M : SMAT) (hv : M.valid) (hsq : M.m = M.n) (ve : List ℚ) (i : Nat)
    (hi : i < M.m) :
    ∑ j in Finset.range M.m, contrib M ve i j
      = if (M.rowAt i).nnz = 0 then ve.getD i 0 else ve.getD i 0 * (M.rowAt i).rowSum := by
  have hm : (M.m : ℚ) ≠ 0 := by
    have : M.m ≠ 0 := by omega
    exact_mod_cast this
  by_cases hz : (M.rowAt i).nnz = 0
  · rw [if_pos hz]
    rw [Finset.sum_congr rfl (fun j hj => contrib_dangling M ve i j hz (Finset.mem_range.1 hj))]
    rw [Finset.sum_const, Finset.card_range, nsmul_eq_mul]
    field_simp
  · rw [if_neg hz]
    obtain ⟨_, hmem⟩ := rowAt_of_lt M i (by rw [hv.1]; exact hi)
    obtain ⟨h1, h2, h3⟩ := hv.2 _ hmem
    simp only [contrib, hz, if_false]
    rw [Finset.sum_comm]
    have hin : ∀ p ∈ Finset.range (M.rowAt i).nnz,
        (∑ j in Finset.range M.m,
          if (M.rowAt i).col.getD p 0 = j then ve.getD i 0 * (M.rowAt i).val.getD p 0 else 0)
          = ve.getD i 0 * (M.rowAt i).val.getD p 0 := by
      intro p hp
      have hpc : p < (M.rowAt i).col.length := by rw [h1]; exact Finset.mem_range.1 hp
      have hc : (M.rowAt i).col.getD p 0 < M.m := by
        rw [hsq]
        apply h3
        rw [List.getD_eq_getElem _ _ hpc]
        exact List.getElem_mem hpc
      rw [Finset.sum_ite_eq (Finset.range M.m), if_pos (Finset.mem_range.2 hc)]
    rw [Finset.sum_congr rfl hin, ← Finset.mul_sum, SROW.rowSum, list_sum_eq_range, h2]

/-- Total mass after one pass, for any valid square matrix. -/
theorem step_sum (M : SMAT) (hv : M.valid) (hsq : M.m = M.n) (ve : List ℚ) :
    (step M ve).sum = ∑ i in Finset.range M.m,
      if (M.rowAt i).nnz = 0 then ve.getD i 0 else ve.getD i 0 * (M.rowAt i).rowSum := by
  rw [list_sum_eq_range, step_length]
  rw [Finset.sum_congr rfl (fun j hj => step_getD M ve j (Finset.mem_range.1 hj))]
  rw [Finset.sum_comm]
  exact Finset.sum_congr rfl (fun i hi => sum_contrib_row M hv hsq ve i (Finset.mem_range.1 hi))

theorem step_sum_stochastic (M : SMAT) (hv : M.valid) (hsq : M.m = M.n) (hs : M.stochastic)
    (ve : List ℚ) (hve : ve.length = M.m) : (step M ve).sum = ve.sum := by
  rw [step_sum M hv hsq, list_sum_eq_range ve, hve]
  apply Finset.sum_congr rfl
  intro i hi
  obtain ⟨_, hmem⟩ := rowAt_of_lt M i (by rw [hv.1]; exact Finset.mem_range.1 hi)
  rcases hs _ hmem with h | h
  · rw [if_pos h]
  · rw [h, mul_one, ite_self]

theorem iterate_step_sum (M : SMAT) (hv : M.valid) (hsq : M.m = M.n) (hs : M.stochastic)
    (ve : List ℚ) (hve : ve.length = M.m) (k : Nat) : ((step M)^[k] ve).sum = ve.sum := by
  induction k with
  | zero => rfl
  | succ k ih =>
    rw [Function.iterate_succ_apply',
      step_sum_stochastic M hv hsq hs _ (iterate_step_length M ve hve k), ih]

/-! ## Further consequences of the closed forms -/

/-- General frame and totality of `sm_toH` on matrices with at most as many
columns as rows: it returns, and only stored values change. -/
theorem sm_toH_frame (M : SMAT) (hM : M.valid) (hn : M.n ≤ M.m) :
    ∃ M1, sm_toH M = some M1 ∧ M1.m = M.m ∧ M1.n = M.n ∧ M1.row.length = M.row.length ∧
      ∀ (i : Nat) (r : SROW), M.row[i]? = some r →
        ∃ r1 : SROW, M1.row[i]? = some r1 ∧ r1.nnz = r.nnz ∧ r1.col = r.col ∧
          r1.val.length = r.val.length := by
  refine ⟨_, sm_toH_eq M hM hn, rfl, rfl, ?_, ?_⟩
  · simp
    omega
  · intro i r hr
    by_cases hi : i < M.n
    · refine ⟨r.scaled, ?_, rfl, rfl, by simp [SROW.scaled]⟩
      have hlen : ((M.row.take M.n).map SROW.scaled).length = M.n := by
        simp [hM.1, hn]
      simp only
      rw [List.getElem?_append_left (by omega), List.getElem?_map, List.getElem?_take_of_lt hi, hr]
      rfl
    · refine ⟨r, ?_, rfl, rfl, rfl⟩
      have hlen : ((M.row.take M.n).map SROW.scaled).length = M.n := by
        simp [hM.1, hn]
      simp only
      rw [List.getElem?_append_right (by omega), hlen, List.getElem?_drop]
      rw [← hr]
      congr 1
      omega

/-- On a square binary matrix every non-dangling row sums to 1 after `sm_toH`. -/
theorem sm_toH_rowSum_square (M : SMAT) (hM : M.valid) (hsq : M.m = M.n) (hb : M.binary) :
    ∃ M1, sm_toH M = some M1 ∧ ∀ r1 ∈ M1.row, 0 < r1.nnz → r1.rowSum = 1 := by
  refine ⟨_, sm_toH_square M hM hsq, ?_⟩
  intro r1 hr1 hpos
  obtain ⟨r, hr, rfl⟩ := List.mem_map.1 hr1
  exact scaled_rowSum r (hM.2 r hr).2.1 (hb r hr) hpos

/-! ## Mass conservation and the reference product -/

/-- C1. Mass conservation of `v_score`: for a square valid matrix whose rows are
dangling or sum to 1, and a vector of dimension `m` whose entries sum to 1,
`v_score` returns, for every iteration count `k` (in particular every
`k ≥ 0`), a vector whose entries sum to 1. -/
theorem v_score_mass_conservation (v : VEC) (M : SMAT) (k : Int)
    (hM : M.valid) (hsq : M.m = M.n) (hs : M.stochastic)
    (hdim : v.dim = M.m) (hv : v.valid) (hsum : v.total = 1) :
    ∃ r, v_score v M k = some r ∧ r.total = 1 := by
  have hve : v.e.length = M.m := hv.trans hdim
  refine ⟨_, v_score_eq v M k hM hsq hve, ?_⟩
  show ((step M)^[k.toNat] v.e).sum = 1
  rw [iterate_step_sum M hM hsq hs v.e hve k.toNat]
  exact hsum

/-- Witness of C1 on `triNode`, the uniform vector and three iterations. -/
theorem v_score_mass_conservation_witness :
    triNode.valid ∧ triNode.m = triNode.n ∧ triNode.stochastic ∧
      (∃ r, v_score ⟨3, [1 / 3, 1 / 3, 1 / 3]⟩ triNode 3 = some r ∧ r.total = 1) :=
  ⟨by decide, rfl, by simp [SMAT.stochastic, SROW.rowSum, triNode]; norm_num,
    v_score_mass_conservation ⟨3, [1 / 3, 1 / 3, 1 / 3]⟩ triNode 3 (by decide) rfl
      (by simp [SMAT.stochastic, SROW.rowSum, triNode]; norm_num) rfl rfl
      (by simp [VEC.total]; norm_num)⟩

/-- C3, evaluated on a matrix that is not square: `tallMatrix` is a valid
binary matrix with 3 rows and 2 columns; `sm_toH` returns it unchanged, so its
row 2, which has `nnz = 2 > 0`, still has stored values summing to 2 rather
than 1, because the loop of `sm_toH` stops at `H->n = 2` rows. -/
theorem sm_toH_tall_row_not_normalised :
    tallMatrix.valid ∧ tallMatrix.binary ∧
      ∃ M1, sm_toH tallMatrix = some M1 ∧
        ∃ r, M1.row[2]? = some r ∧ 0 < r.nnz ∧ r.rowSum = 2 ∧ r.rowSum ≠ 1 := by
  refine ⟨by decide, by simp [SMAT.binary, tallMatrix], tallMatrix, rfl,
    ⟨2, [0, 1], [1, 1]⟩, rfl, by decide, ?_, ?_⟩
  · simp [SROW.rowSum]
    norm_num
  · simp [SROW.rowSum]

/-- C4. `sm_toH` divides each stored entry by its row's `nnz`: on a square valid
matrix it returns a matrix in which, for every row `i` and stored position `p`
holding `x` before the call, position `(i, p)` holds `x / nnz_i`; when the
matrix is binary that is `1 / nnz_i`. -/
theorem sm_toH_divides_by_nnz (M : SMAT) (hM : M.valid) (hsq : M.m = M.n) :
    ∃ M1, sm_toH M = some M1 ∧
      ∀ (i : Nat) (r : SROW), M.row[i]? = some r →
        ∃ r1 : SROW, M1.row[i]? = some r1 ∧
          ∀ (p : Nat) (x : ℚ), r.val[p]? = some x →
            r1.val[p]? = some (x / (r.nnz : ℚ)) ∧
              (M.binary → r1.val[p]? = some (1 / (r.nnz : ℚ))) := by
  refine ⟨_, sm_toH_square M hM hsq, ?_⟩
  intro i r hr
  refine ⟨r.scaled, by simp [hr], ?_⟩
  intro p x hx
  have h1 : r.scaled.val[p]? = some (x / (r.nnz : ℚ)) := by
    simp [SROW.scaled, hx]
  refine ⟨h1, ?_⟩
  intro hb
  have hx1 : x = 1 := hb r (List.getElem?_mem hr) x (List.getElem?_mem hx)
  rw [h1, hx1]

/-- Witness of C4 on the binary matrix `triAdj`. -/
theorem sm_toH_divides_by_nnz_witness :
    triAdj.valid ∧ triAdj.m = triAdj.n ∧
      ∃ M1, sm_toH triAdj = some M1 ∧
        ∀ (i : Nat) (r : SROW), triAdj.row[i]? = some r →
          ∃ r1 : SROW, M1.row[i]? = some r1 ∧
            ∀ (p : Nat) (x : ℚ), r.val[p]? = some x →
              r1.val[p]? = some (x / (r.nnz : ℚ)) ∧
                (triAdj.binary → r1.val[p]? = some (1 / (r.nnz : ℚ))) :=
  ⟨by decide, rfl, sm_toH_divides_by_nnz triAdj (by decide) rfl⟩

/-- C5, evaluated on a matrix with more columns than rows: `wideMatrix` is a
valid matrix with 1 row and 2 columns; the loop of `sm_toH` runs `i` up to
`H->n = 2` and reads `H->row[1]`, outside the row array, so no resulting
matrix exists whose dimensions and sparsity pattern could be compared. -/
theorem sm_toH_wide_out_of_range :
    wideMatrix.valid ∧ wideMatrix.m < wideMatrix.n ∧ sm_toH wideMatrix = none := by
  refine ⟨by decide, by decide, by decide⟩

/-! ## Iteration count zero and the two-node scenario -/

/-- C6. Zero iterations is the identity: for every matrix and every vector,
`v_score v M 0` returns `v` itself, dimension and entries unchanged. -/
theorem v_score_zero (v : VEC) (M : SMAT) : v_score v M 0 = some v := by
  simp [v_score]

/-- C9. The two-node scenario: `sm_toH` leaves `twoNode` (row 0 holding the
single entry `(col 1, value 1)`, row 1 dangling) unchanged, and one iteration
from `[1/2, 1/2]` returns `[1/4, 3/4]`, whose entries sum to 1. -/
theorem two_node_scenario :
    sm_toH twoNode = some twoNode ∧
      twoNode.row = [⟨1, [1], [1]⟩, ⟨0, [], []⟩] ∧
      v_score ⟨2, [1 / 2, 1 / 2]⟩ twoNode 1 = some ⟨2, [1 / 4, 3 / 4]⟩ ∧
      VEC.total ⟨2, [1 / 4, 3 / 4]⟩ = 1 := by
  refine ⟨?_, rfl, ?_, ?_⟩
  · simp [sm_toH, sm_toH_row, twoNode, List.range_succ]
  · simp [v_score, v_new, iteration, accumulate, danglingLoop, sparseLoop, copyBack, addAt,
      twoNode, List.range_succ]
    norm_num
  · simp [VEC.total]
    norm_num

/-! ## Fixed points and the contribution of a dangling row -/

theorem sm_new_eq (m n : Nat) :
    sm_new m n = some { m := m, n := n, row := List.replicate m { nnz := 0, col := [], val := [] } } := by
  unfold sm_new
  rw [foldlM_range_update _ (fun _ => ({ nnz := 0, col := [], val := [] } : SROW))
    (List.replicate m { nnz := 0, col := [], val := [] })
    (fun a i x _ hx => by simp [hx]) m (by simp)]
  simp

/-- C11. Postcondition of `sm_new`: for every `m` and `n` it returns a matrix
with row count `m`, column count `n` and exactly `m` rows, each with
`nnz = 0` and empty column and value arrays. -/
theorem sm_new_postcondition (m n : Nat) :
    ∃ M, sm_new m n = some M ∧ M.m = m ∧ M.n = n ∧ M.row.length = m ∧
      ∀ r ∈ M.row, r.nnz = 0 ∧ r.col = [] ∧ r.val = [] := by
  refine ⟨_, sm_new_eq m n, rfl, rfl, by simp, ?_⟩
  intro r hr
  rw [(List.mem_replicate.1 hr).2]
  exact ⟨rfl, rfl, rfl⟩

/-- C12. Postcondition of `v_new`: for every `size` the vector returned has
`dim = size`, a value array of length `size`, and every entry equal to 0. -/
theorem v_new_postcondition (size : Nat) :
    (v_new size).dim = size ∧ (v_new size).e.length = size ∧ ∀ x ∈ (v_new size).e, x = 0 := by
  refine ⟨rfl, by simp [v_new], ?_⟩
  intro x hx
  exact (List.mem_replicate.1 hx).2

/-! ## Index safety, composition and sign -/

/-- C15. Index safety under the caller contract: for a square valid matrix, a
vector of dimension `m` and any `k`, neither `sm_toH` nor `v_score` takes an
out-of-range branch: both return a result. -/
theorem index_safety (v : VEC) (M : SMAT) (k : Int)
    (hM : M.valid) (hsq : M.m = M.n) (hdim : v.dim = M.m) (hv : v.valid) :
    (∃ H, sm_toH M = some H) ∧ (∃ r, v_score v M k = some r) :=
  ⟨⟨_, sm_toH_square M hM hsq⟩, ⟨_, v_score_eq v M k hM hsq (hv.trans hdim)⟩⟩

/-- Witness of C15 on `triAdj`, the uniform vector and 1000 iterations. -/
theorem index_safety_witness :
    triAdj.valid ∧ triAdj.m = triAdj.n ∧
      ((∃ H, sm_toH triAdj = some H) ∧
        (∃ r, v_score ⟨3, [1 / 3, 1 / 3, 1 / 3]⟩ triAdj 1000 = some r)) :=
  ⟨by decide, rfl, index_safety ⟨3, [1 / 3, 1 / 3, 1 / 3]⟩ triAdj 1000 (by decide) rfl rfl rfl⟩

theorem iterate_bind_v_score (v : VEC) (M : SMAT) (hM : M.valid) (hsq : M.m = M.n)
    (hve : v.e.length = M.m) (k : Nat) :
    (fun o : Option VEC => o.bind (fun w => v_score w M 1))^[k] (some v)
      = some { dim := v.dim, e := (step M)^[k] v.e } := by
  induction k with
  | zero => rfl
  | succ k ih =>
    rw [Function.iterate_succ_apply', ih, Option.some_bind,
      v_score_eq _ M 1 hM hsq (iterate_step_length M v.e hve k)]
    show some (VEC.mk v.dim ((step M)^[1] ((step M)^[k] v.e))) = _
    rw [Function.iterate_one, Function.iterate_succ_apply']

/-- C16. Iterations compose: for a square valid matrix, a vector of dimension
`m` and counts `a, b ≥ 0`, `v_score v M a` returns some `w`, `v_score w M b`
returns some `r`, and `v_score v M (a + b)` returns the same `r`; `a`
iterations are `a` successive calls with count 1; and every pass that starts
with a zero scratch vector ends with a zero scratch vector. -/
theorem v_score_compose (v : VEC) (M : SMAT) (a b : Int)
    (hM : M.valid) (hsq : M.m = M.n) (hdim : v.dim = M.m) (hv : v.valid)
    (ha : 0 ≤ a) (hb : 0 ≤ b) :
    (∃ w r, v_score v M a = some w ∧ v_score w M b = some r ∧
      v_score v M (a + b) = some r) ∧
    (fun o : Option VEC => o.bind (fun w => v_score w M 1))^[a.toNat] (some v)
      = v_score v M a ∧
    (∀ ve : List ℚ, ve.length = M.m →
      ∃ ve1, iteration M (ve, List.replicate M.m 0) = some (ve1, List.replicate M.m 0)) := by
  have hve : v.e.length = M.m := hv.trans hdim
  refine ⟨⟨_, _, v_score_eq v M a hM hsq hve,
    v_score_eq _ M b hM hsq (iterate_step_length M v.e hve a.toNat), ?_⟩, ?_, ?_⟩
  · rw [v_score_eq v M (a + b) hM hsq hve, Int.toNat_add ha hb, add_comm,
      Function.iterate_add_apply]
  · rw [iterate_bind_v_score v M hM hsq hve, v_score_eq v M a hM hsq hve]
  · intro ve hlen
    exact ⟨_, iteration_spec M hM hsq ve hlen⟩

/-- Witness of C16 on `triNode` with counts 2 and 3. -/
theorem v_score_compose_witness :
    triNode.valid ∧ triNode.m = triNode.n ∧ (0 : Int) ≤ 2 ∧ (0 : Int) ≤ 3 ∧
      ((∃ w r, v_score ⟨3, [1 / 3, 1 / 3, 1 / 3]⟩ triNode 2 = some w ∧
          v_score w triNode 3 = some r ∧
          v_score ⟨3, [1 / 3, 1 / 3, 1 / 3]⟩ triNode (2 + 3) = some r) ∧
        (fun o : Option VEC => o.bind (fun w => v_score w triNode 1))^[(2 : Int).toNat]
            (some ⟨3, [1 / 3, 1 / 3, 1 / 3]⟩)
          = v_score ⟨3, [1 / 3, 1 / 3, 1 / 3]⟩ triNode 2 ∧
        (∀ ve : List ℚ, ve.length = triNode.m →
          ∃ ve1, iteration triNode (ve, List.replicate triNode.m 0)
            = some (ve1, List.replicate triNode.m 0))) :=
  ⟨by decide, rfl, by decide, by decide,
    v_score_compose ⟨3, [1 / 3, 1 / 3, 1 / 3]⟩ triNode 2 3 (by decide) rfl rfl rfl
      (by decide) (by decide)⟩

theorem digitChar_isDigit (d : Nat) (hd : d < 10) :
    (Nat.digitChar d).isDigit = true ∧ (Nat.digitChar d).toNat - 48 = d := by
  interval_cases d <;> exact ⟨by decide, by decide⟩

theorem foldl_digits_shift (ds : List Char) (a : Nat) :
    ds.foldl (fun a c => 10 * a + (c.toNat - 48)) a
      = a * 10 ^ ds.length + ds.foldl (fun a c => 10 * a + (c.toNat - 48)) 0 := by
  induction ds generalizing a with
  | nil => simp
  | cons c ds ih =>
    simp only [List.foldl_cons, List.length_cons]
    rw [ih (10 * a + (c.toNat - 48)), ih (10 * 0 + (c.toNat - 48))]
    ring

theorem toDigitsCore_spec (fuel : Nat) : ∀ (k : Nat) (acc : List Char), k < fuel →
    (∀ c ∈ acc, c.isDigit = true) →
    (∀ c ∈ Nat.toDigitsCore 10 fuel k acc, c.isDigit = true) ∧
      Nat.toDigitsCore 10 fuel k acc ≠ [] ∧
      digitsValue (Nat.toDigitsCore 10 fuel k acc) = k * 10 ^ acc.length + digitsValue acc := by
  induction fuel with
  | zero => intro k acc hk; omega
  | succ fuel ih =>
    intro k acc hk hacc
    obtain ⟨hd1, hd2⟩ := digitChar_isDigit (k % 10) (Nat.mod_lt k (by decide))
    have hacc1 : ∀ c ∈ Nat.digitChar (k % 10) :: acc, c.isDigit = true := by
      intro c hc
      rcases List.mem_cons.1 hc with h | h
      · rw [h]; exact hd1
      · exact hacc c h
    have hval : digitsValue (Nat.digitChar (k % 10) :: acc)
        = (k % 10) * 10 ^ acc.length + digitsValue acc := by
      unfold digitsValue
      rw [List.foldl_cons, foldl_digits_shift, hd2]
      simp
    unfold Nat.toDigitsCore
    simp only
    by_cases hz : k / 10 = 0
    · rw [if_pos hz]
      refine ⟨hacc1, List.cons_ne_nil _ _, ?_⟩
      rw [hval]
      have : k % 10 = k := Nat.mod_eq_of_lt (by omega)
      rw [this]
    · rw [if_neg hz]
      obtain ⟨h1, h2, h3⟩ := ih (k / 10) (Nat.digitChar (k % 10) :: acc) (by omega) hacc1
      refine ⟨h1, h2, ?_⟩
      rw [h3, hval, List.length_cons, pow_succ]
      have hk10 := Nat.div_add_mod k 10
      calc k / 10 * (10 ^ acc.length * 10) + (k % 10 * 10 ^ acc.length + digitsValue acc)
          = (10 * (k / 10) + k % 10) * 10 ^ acc.length + digitsValue acc := by ring
        _ = k * 10 ^ acc.length + digitsValue acc := by rw [hk10]

theorem dec_spec (k : Nat) :
    (∀ c ∈ dec k, c.isDigit = true) ∧ dec k ≠ [] ∧ digitsValue (dec k) = k := by
  obtain ⟨h1, h2, h3⟩ := toDigitsCore_spec (k + 1) k [] (Nat.lt_succ_self k) (by simp)
  refine ⟨h1, h2, ?_⟩
  unfold dec Nat.toDigits
  rw [h3]
  simp [digitsValue]

theorem isDigit_bounds (c : Char) (h : c.isDigit = true) : 48 ≤ c.toNat ∧ c.toNat ≤ 57 := by
  simp only [Char.isDigit, Bool.and_eq_true, decide_eq_true_eq] at h
  exact ⟨h.1, h.2⟩

theorem isDigit_not_space (c : Char) (h : c.isDigit = true) : isSpace c = false := by
  obtain ⟨h1, h2⟩ := isDigit_bounds c h
  simp [isSpace]
  omega

theorem dec_cons (k : Nat) : ∃ d ds, dec k = d :: ds ∧ d.isDigit = true := by
  obtain ⟨h1, h2, _⟩ := dec_spec k
  cases hk : dec k with
  | nil => exact absurd hk h2
  | cons d ds => exact ⟨d, ds, rfl, h1 d (by rw [hk]; exact List.mem_cons_self d ds)⟩

theorem skipSpace_dec (k : Nat) (rest : List Char) :
    skipSpace (dec k ++ rest) = dec k ++ rest := by
  obtain ⟨d, ds, hk, hd⟩ := dec_cons k
  rw [hk]
  simp [skipSpace, isDigit_not_space d hd]

theorem skipSpace_space (s : List Char) : skipSpace (' ' :: s) = skipSpace s := by
  have h : isSpace ' ' = true := by decide
  simp [skipSpace, h]

theorem skipSpace_nl (s : List Char) : skipSpace (nl :: s) = skipSpace s := by
  have h : isSpace nl = true := by decide
  simp [skipSpace, h]

theorem scanSign_dec (k : Nat) (rest : List Char) :
    scanSign (dec k ++ rest) = (false, dec k ++ rest) := by
  obtain ⟨d, ds, hk, hd⟩ := dec_cons k
  obtain ⟨h1, h2⟩ := isDigit_bounds d hd
  have hm : d ≠ '-' := by
    intro h
    rw [h] at h1
    exact absurd h1 (by decide)
  have hp : d ≠ '+' := by
    intro h
    rw [h] at h1
    exact absurd h1 (by decide)
  rw [hk]
  simp [scanSign, hm, hp]

theorem scanDigits_dec (k : Nat) (c : Char) (rest : List Char) (hc : c.isDigit = false) :
    scanDigits (dec k ++ c :: rest) = some (k, c :: rest) := by
  obtain ⟨h1, _, h3⟩ := dec_spec k
  obtain ⟨d, ds, hk, _⟩ := dec_cons k
  have ht : (dec k ++ c :: rest).takeWhile Char.isDigit = dec k := by
    rw [List.takeWhile_append_of_pos h1, List.takeWhile_cons_of_neg (by simp [hc]),
      List.append_nil]
  have hdrop : (dec k ++ c :: rest).dropWhile Char.isDigit = c :: rest := by
    rw [List.dropWhile_append_of_pos h1, List.dropWhile_cons_of_neg (by simp [hc])]
  unfold scanDigits
  rw [ht, hdrop]
  rw [hk] at h3 ⊢
  simp only [h3]

theorem scanU_dec (k : Nat) (c : Char) (rest : List Char) (hc : c.isDigit = false) :
    scanU (dec k ++ c :: rest) = some (k, c :: rest) := by
  unfold scanU
  rw [skipSpace_dec, scanSign_dec]
  simp only [scanDigits_dec k c rest hc]
  rfl

theorem scanD_dec (k : Nat) (c : Char) (rest : List Char) (hc : c.isDigit = false) :
    scanD (dec k ++ c :: rest) = some ((k : Int), c :: rest) := by
  unfold scanD
  rw [skipSpace_dec, scanSign_dec]
  simp only [scanDigits_dec k c rest hc]
  rfl

theorem scanD_space (s : List Char) : scanD (' ' :: s) = scanD s := by
  unfold scanD
  rw [skipSpace_space]

theorem scanD_sentinel (rest : List Char) :
    scanD (' ' :: '-' :: '1' :: nl :: rest) = some (-1, nl :: rest) := by
  have h1 : Char.isDigit '1' = true := by decide
  have h2 : Char.isDigit nl = false := by decide
  have h3 : isSpace '-' = false := by decide
  rw [scanD_space]
  simp [scanD, skipSpace, scanSign, scanDigits, digitsValue, h1, h2, h3]

theorem matchLit_append (lit rest : List Char) : matchLit lit (lit ++ rest) = some rest := by
  induction lit with
  | nil => rfl
  | cons c lit ih => simp [matchLit, ih]

theorem scanHeader_render (m n : Nat) (rest : List Char) :
    scanHeader (['S', 'p', 'a', 'r', 's', 'e', 'M', 'a', 't', 'r', 'i', 'x', ':', ' '] ++ dec m
      ++ [' ', 'b', 'y', ' '] ++ dec n ++ nl :: rest) = some (m, n, nl :: rest) := by
  have hS : isSpace 'S' = false := by decide
  have hb : isSpace 'b' = false := by decide
  have hsp : Char.isDigit ' ' = false := by decide
  have hnl : Char.isDigit nl = false := by decide
  have e1 : skipSpace (['S', 'p', 'a', 'r', 's', 'e', 'M', 'a', 't', 'r', 'i', 'x', ':', ' ']
      ++ dec m ++ [' ', 'b', 'y', ' '] ++ dec n ++ nl :: rest)
      = ['S', 'p', 'a', 'r', 's', 'e', 'M', 'a', 't', 'r', 'i', 'x', ':']
        ++ (' ' :: (dec m ++ ' ' :: 'b' :: 'y' :: ' ' :: (dec n ++ nl :: rest))) := by
    simp [skipSpace, hS]
  unfold scanHeader
  rw [e1, matchLit_append]
  simp only
  rw [skipSpace_space, skipSpace_dec, scanU_dec m ' ' _ hsp]
  simp only
  have e2 : skipSpace (' ' :: 'b' :: 'y' :: ' ' :: (dec n ++ nl :: rest))
      = ['b', 'y'] ++ (' ' :: (dec n ++ nl :: rest)) := by
    rw [skipSpace_space]
    simp [skipSpace, hb]
  rw [e2, matchLit_append]
  simp only
  rw [skipSpace_space, skipSpace_dec, scanU_dec n nl rest hnl]

theorem scanRowLabel_render (r : Nat) (rest : List Char) :
    scanRowLabel (nl :: (['r', 'o', 'w', ' '] ++ dec r ++ ':' :: rest)) = some (r, rest) := by
  have hr : isSpace 'r' = false := by decide
  have hc : Char.isDigit ':' = false := by decide
  have e1 : skipSpace (nl :: (['r', 'o', 'w', ' '] ++ dec r ++ ':' :: rest))
      = ['r', 'o', 'w'] ++ (' ' :: (dec r ++ ':' :: rest)) := by
    rw [skipSpace_nl]
    simp [skipSpace, hr]
  unfold scanRowLabel
  rw [e1, matchLit_append]
  simp only
  rw [skipSpace_space, skipSpace_dec, scanU_dec r ':' rest hc]
  simp

theorem scanDigits_length (s rest : List Char) (v : Nat) (h : scanDigits s = some (v, rest)) :
    rest.length < s.length := by
  unfold scanDigits at h
  have hsplit := List.takeWhile_append_dropWhile Char.isDigit s
  cases ht : s.takeWhile Char.isDigit with
  | nil => rw [ht] at h; simp at h
  | cons d ds =>
    rw [ht] at h hsplit
    simp only [Option.some.injEq, Prod.mk.injEq] at h
    rw [← h.2]
    have := congrArg List.length hsplit
    simp only [List.length_append, List.length_cons] at this
    omega

theorem scanSign_length (s : List Char) : (scanSign s).2.length ≤ s.length := by
  unfold scanSign
  split
  · split
    · simp
    · split <;> simp
  · simp

theorem scanD_length (s rest : List Char) (c : Int) (h : scanD s = some (c, rest)) :
    rest.length < s.length := by
  unfold scanD at h
  cases hd : scanDigits (scanSign (skipSpace s)).2 with
  | none => rw [hd] at h; simp at h
  | some p =>
    obtain ⟨v, r⟩ := p
    rw [hd] at h
    simp only [Option.some.injEq, Prod.mk.injEq] at h
    have h1 := scanDigits_length _ _ _ hd
    have h2 := scanSign_length (skipSpace s)
    have h3 : (skipSpace s).length ≤ s.length := (List.dropWhile_sublist isSpace).length_le
    rw [← h.2]
    omega

/-- The step budget `s.length + 1` handed to `readCols` is never exhausted:
every pass consumes at least one character. -/
theorem readCols_fuel_sufficient (fuel : Nat) : ∀ (s : List Char) (col : List Nat) (j : Nat),
    s.length < fuel → readCols fuel s col j ≠ .error Fault.fuel := by
  induction fuel with
  | zero => intro s col j h; omega
  | succ fuel ih =>
    intro s col j h
    unfold readCols
    cases hd : scanD s with
    | none => simp
    | some p =>
      obtain ⟨c, rest⟩ := p
      have hlen := scanD_length s rest c hd
      simp only
      split
      · simp
      · split
        · exact ih rest _ _ (by omega)
        · simp

/-! ## Closed form of `sm_input` on a matrix file -/

theorem readCols_render (cols : List Nat) : ∀ (fuel : Nat) (pre buf : List Nat) (rest : List Char),
    cols.length < fuel → cols.length ≤ buf.length →
    readCols fuel (cols.flatMap (fun c => ' ' :: dec c) ++ ' ' :: '-' :: '1' :: nl :: rest)
        (pre ++ buf) pre.length
      = .ok (pre ++ cols ++ buf.drop cols.length, pre.length + cols.length, nl :: rest) := by
  induction cols with
  | nil =>
    intro fuel pre buf rest hf _
    obtain ⟨f, rfl⟩ : ∃ f, fuel = f + 1 := ⟨fuel - 1, by simp at hf; omega⟩
    simp [readCols, scanD_sentinel]
  | cons c cs ih =>
    intro fuel pre buf rest hf hb
    obtain ⟨f, rfl⟩ : ∃ f, fuel = f + 1 := ⟨fuel - 1, by omega⟩
    obtain ⟨b, buf1, rfl⟩ : ∃ b buf1, buf = b :: buf1 := by
      cases buf with
      | nil => simp at hb
      | cons b buf1 => exact ⟨b, buf1, rfl⟩
    obtain ⟨T, hT⟩ : ∃ T, cs.flatMap (fun c => ' ' :: dec c) ++ ' ' :: '-' :: '1' :: nl :: rest
        = ' ' :: T := by
      cases cs with
      | nil => exact ⟨_, rfl⟩
      | cons c1 cs1 =>
        exact ⟨dec c1 ++ (cs1.flatMap (fun c => ' ' :: dec c) ++ ' ' :: '-' :: '1' :: nl :: rest),
          by simp⟩
    have hsp : Char.isDigit ' ' = false := by decide
    have htext : (c :: cs).flatMap (fun c => ' ' :: dec c) ++ ' ' :: '-' :: '1' :: nl :: rest
        = ' ' :: (dec c ++ ' ' :: T) := by
      rw [List.flatMap_cons, List.append_assoc, hT]
      simp
    have hlt : pre.length < (pre ++ b :: buf1).length := by simp
    have hset : (pre ++ b :: buf1).set pre.length c = (pre ++ [c]) ++ buf1 :=
      set_append_cons pre buf1 b c pre.length rfl
    rw [htext]
    unfold readCols
    rw [scanD_space, scanD_dec c ' ' T hsp]
    simp only
    rw [if_neg (by omega), if_pos hlt, Int.toNat_ofNat, hset, ← hT]
    have hlen : (pre ++ [c]).length = pre.length + 1 := by simp
    have := ih f (pre ++ [c]) buf1 rest (by simp at hf; omega) (by simp at hb; omega)
    rw [hlen] at this
    rw [this]
    simp
    omega

theorem set_append_drop {α : Type} (A l : List α) (k : Nat) (y : α) (hA : A.length = k)
    (hk : k < l.length) : (A ++ l.drop k).set k y = (A ++ [y]) ++ l.drop (k + 1) := by
  rw [List.drop_eq_getElem_cons hk]
  exact set_append_cons A _ _ y k hA

theorem fillRow_spec (ri : SROW) (hc : ri.col = []) (hv : ri.val = []) (cols tail : List Nat) :
    fillRow ri (cols ++ tail) cols.length = some (rowOfCols cols) := by
  have key : ∀ (C : List Nat) (W : List ℚ), C.length = cols.length → W.length = cols.length →
      ∀ k, k ≤ cols.length →
      (List.range k).foldlM
        (fun (r : SROW) k =>
          match (cols ++ tail)[k]? with
          | some c =>
            if k < r.col.length ∧ k < r.val.length then
              some { r with col := r.col.set k c, val := r.val.set k 1 }
            else none
          | none => none)
        { nnz := cols.length, col := C, val := W }
        = some { nnz := cols.length, col := cols.take k ++ C.drop k,
                 val := List.replicate k 1 ++ W.drop k } := by
    intro C W hC hW k
    induction k with
    | zero => simp
    | succ k ih =>
      intro hk
      have hlt : k < cols.length := hk
      rw [foldlM_range_succ, ih (Nat.le_of_lt hlt), Option.some_bind]
      have hget : (cols ++ tail)[k]? = some cols[k] := by
        rw [List.getElem?_append_left hlt, List.getElem?_eq_getElem hlt]
      have hl1 : (cols.take k).length = k := by simp; omega
      have hl2 : (List.replicate k (1 : ℚ)).length = k := by simp
      have hb1 : k < (cols.take k ++ C.drop k).length := by simp; omega
      have hb2 : k < (List.replicate k (1 : ℚ) ++ W.drop k).length := by simp; omega
      have ht : cols.take (k + 1) = cols.take k ++ [cols[k]] := by
        rw [List.take_succ, List.getElem?_eq_getElem hlt]; rfl
      simp only [hget, hb1, hb2, and_self, if_true]
      rw [set_append_drop _ C k _ hl1 (by omega), set_append_drop _ W k _ hl2 (by omega), ht,
        List.replicate_succ']
  unfold fillRow
  by_cases hj : cols.length = 0
  · have hnil : cols = [] := List.length_eq_zero.1 hj
    subst hnil
    simp [rowOfCols, hc, hv]
  · simp only [ne_eq, hj, not_false_eq_true, if_true]
    rw [key (List.replicate cols.length 0) (List.replicate cols.length 0) (by simp) (by simp)
      cols.length (le_refl _)]
    simp [rowOfCols]

theorem foldlM_range_succ_except {σ ε : Type} (body : σ → Nat → Except ε σ) (n : Nat) (s : σ) :
    (List.range (n + 1)).foldlM body s
      = ((List.range n).foldlM body s).bind (fun t => body t n) := by
  rw [List.range_succ, List.foldlM_append]
  simp only [List.foldlM_cons, List.foldlM_nil, bind_pure]
  rfl

theorem flatMap_length_ge (cols : List Nat) (rest : List Char) :
    cols.length < (cols.flatMap (fun c => ' ' :: dec c) ++ rest).length + 1 := by
  induction cols with
  | nil => simp
  | cons c cs ih =>
    simp only [List.flatMap_cons, List.length_cons, List.length_append] at ih ⊢
    omega

theorem inputRow_render (label : Nat) (cols : List Nat) (rest : List Char) (buf : List Nat)
    (rows : List SROW) (i : Nat) (hb : cols.length ≤ buf.length)
    (hi : rows[i]? = some { nnz := 0, col := [], val := [] }) :
    inputRow (nl :: (renderLine (label, cols) ++ rest), buf, rows) i
      = .ok (nl :: rest, cols ++ buf.drop cols.length, rows.set i (rowOfCols cols)) := by
  have htext : nl :: (renderLine (label, cols) ++ rest)
      = nl :: (['r', 'o', 'w', ' '] ++ dec label ++ ':' ::
          (cols.flatMap (fun c => ' ' :: dec c) ++ ' ' :: '-' :: '1' :: nl :: rest)) := by
    simp [renderLine]
  have hread := readCols_render cols
    ((cols.flatMap (fun c => ' ' :: dec c) ++ ' ' :: '-' :: '1' :: nl :: rest).length + 1)
    [] buf rest (flatMap_length_ge cols _) hb
  simp only [List.nil_append, List.length_nil, Nat.zero_add] at hread
  have hfill := fillRow_spec { nnz := 0, col := [], val := [] } rfl rfl cols (buf.drop cols.length)
  unfold inputRow
  simp only [htext, scanRowLabel_render, hi, hread, hfill]

theorem inputRows_render (n L : Nat) (lines : List (Nat × List Nat))
    (hcols : ∀ l ∈ lines, l.2.length ≤ n) (hL : lines.length ≤ L) (rest : List Char) :
    ∀ k, k ≤ lines.length → ∃ buf : List Nat, buf.length = n ∧
      (List.range k).foldlM inputRow
          (nl :: (lines.flatMap renderLine ++ rest), List.replicate n 0,
            List.replicate L { nnz := 0, col := [], val := [] })
        = .ok (nl :: ((lines.drop k).flatMap renderLine ++ rest), buf,
            (lines.take k).map (fun l => rowOfCols l.2)
              ++ List.replicate (L - k) { nnz := 0, col := [], val := [] }) := by
  intro k
  induction k with
  | zero =>
    intro _
    exact ⟨List.replicate n 0, by simp, by simp [pure, Except.pure]⟩
  | succ k ih =>
    intro hk
    have hlt : k < lines.length := hk
    obtain ⟨buf, hbuf, hfold⟩ := ih (Nat.le_of_lt hlt)
    have hdrop : lines.drop k = lines[k] :: lines.drop (k + 1) := List.drop_eq_getElem_cons hlt
    have htake : lines.take (k + 1) = lines.take k ++ [lines[k]] := by
      rw [List.take_succ, List.getElem?_eq_getElem hlt]; rfl
    have hrep : List.replicate (L - k) ({ nnz := 0, col := [], val := [] } : SROW)
        = { nnz := 0, col := [], val := [] }
          :: List.replicate (L - (k + 1)) { nnz := 0, col := [], val := [] } := by
      rw [← List.replicate_succ]
      congr 1
      omega
    have hlen : ((lines.take k).map (fun l => rowOfCols l.2)).length = k := by
      simp; omega
    have hcol : lines[k].2.length ≤ buf.length := by
      rw [hbuf]; exact hcols _ (List.getElem_mem hlt)
    refine ⟨lines[k].2 ++ buf.drop lines[k].2.length, by simp; omega, ?_⟩
    rw [foldlM_range_succ_except, hfold, hdrop, List.flatMap_cons, List.append_assoc, hrep]
    simp only [Except.bind]
    rw [inputRow_render lines[k].1 lines[k].2 _ buf _ k hcol
      (getElem?_append_cons _ _ _ k hlen), set_append_cons _ _ _ _ k hlen, htake]
    simp only [List.map_append, List.map_cons, List.map_nil]

/-- Closed form of `sm_input` on a matrix file with `m` row lines, each
listing at most `n` columns. -/
theorem sm_input_render (m n : Nat) (lines : List (Nat × List Nat))
    (hm : lines.length = m) (hcols : ∀ l ∈ lines, l.2.length ≤ n) :
    sm_input (renderInput m n lines)
      = .ok { m := m, n := n, row := lines.map (fun l => rowOfCols l.2) } := by
  obtain ⟨buf, _, hfold⟩ :=
    inputRows_render n lines.length lines hcols (le_refl _) [] lines.length (le_refl _)
  unfold sm_input renderInput
  rw [scanHeader_render]
  simp only [sm_new_eq]
  rw [← hm]
  simp only [List.append_nil] at hfold
  rw [hfold]
  simp

/-- C13. Row population by `sm_input`: on a well-formed matrix file with header
`m by n` and `m` row lines, the `i`-th listing `j_i ≤ n` column indices before
the sentinel `-1`, `sm_input` returns a matrix of dimensions `m` by `n` whose
row `i` has `nnz = j_i`, the listed indices in the listed order as columns, and
every stored value equal to 1 (a line listing only `-1` gives a dangling row). -/
theorem sm_input_row_population (m n : Nat) (lines : List (Nat × List Nat))
    (hwf : wellFormedInput m n lines) :
    ∃ M, sm_input (renderInput m n lines) = .ok M ∧ M.m = m ∧ M.n = n ∧
      M.row.length = m ∧
      ∀ (i : Nat) (l : Nat × List Nat), lines[i]? = some l →
        ∃ r : SROW, M.row[i]? = some r ∧ r.nnz = l.2.length ∧ r.col = l.2 ∧
          r.val = List.replicate l.2.length 1 := by
  obtain ⟨hm, _, _, hl⟩ := hwf
  refine ⟨_, sm_input_render m n lines hm (fun l h => (hl l h).2.1), rfl, rfl,
    by simp [hm], ?_⟩
  intro i l hi
  exact ⟨rowOfCols l.2, by simp [hi], rfl, rfl, rfl⟩

/-- Witness of C13 on the file `SparseMatrix: 2 by 3 / row 0: 1 2 -1 / row 1: -1`. -/
theorem sm_input_row_population_witness :
    wellFormedInput 2 3 [(0, [1, 2]), (1, [])] ∧
      ∃ M, sm_input (renderInput 2 3 [(0, [1, 2]), (1, [])]) = .ok M ∧ M.m = 2 ∧ M.n = 3 ∧
        M.row.length = 2 ∧
        ∀ (i : Nat) (l : Nat × List Nat), [(0, [1, 2]), (1, [])][i]? = some l →
          ∃ r : SROW, M.row[i]? = some r ∧ r.nnz = l.2.length ∧ r.col = l.2 ∧
            r.val = List.replicate l.2.length 1 :=
  ⟨by decide, sm_input_row_population 2 3 [(0, [1, 2]), (1, [])] (by decide)⟩

/-- C19. `sm_input` ignores the row label: two well-formed matrix files with
the same header whose row lines list the same columns in the same order, and
differ at most in their labels, are read into the same matrix, and the columns
of the `i`-th line are stored in row `i`. -/
theorem sm_input_ignores_label (m n : Nat) (lines1 lines2 : List (Nat × List Nat))
    (h1 : wellFormedInput m n lines1) (h2 : wellFormedInput m n lines2)
    (hsame : lines1.map Prod.snd = lines2.map Prod.snd) :
    ∃ M, sm_input (renderInput m n lines1) = .ok M ∧
      sm_input (renderInput m n lines2) = .ok M ∧
      ∀ (i : Nat) (l : Nat × List Nat), lines1[i]? = some l →
        ∃ r : SROW, M.row[i]? = some r ∧ r.col = l.2 := by
  have e1 := sm_input_render m n lines1 h1.1 (fun l h => (h1.2.2.2 l h).2.1)
  have e2 := sm_input_render m n lines2 h2.1 (fun l h => (h2.2.2.2 l h).2.1)
  have hrows : lines2.map (fun l => rowOfCols l.2) = lines1.map (fun l => rowOfCols l.2) := by
    have := congrArg (List.map rowOfCols) hsame
    simpa [List.map_map, Function.comp_def] using this.symm
  rw [hrows] at e2
  refine ⟨_, e1, e2, ?_⟩
  intro i l hi
  exact ⟨rowOfCols l.2, by simp [hi], rfl⟩

/-- Witness of C19: the labels `0, 1` against the labels `7, 7`. -/
theorem sm_input_ignores_label_witness :
    wellFormedInput 2 3 [(0, [1, 2]), (1, [])] ∧ wellFormedInput 2 3 [(7, [1, 2]), (7, [])] ∧
      ∃ M, sm_input (renderInput 2 3 [(0, [1, 2]), (1, [])]) = .ok M ∧
        sm_input (renderInput 2 3 [(7, [1, 2]), (7, [])]) = .ok M ∧
        ∀ (i : Nat) (l : Nat × List Nat), [(0, [1, 2]), (1, [])][i]? = some l →
          ∃ r : SROW, M.row[i]? = some r ∧ r.col = l.2 :=
  ⟨by decide, by decide,
    sm_input_ignores_label 2 3 [(0, [1, 2]), (1, [])] [(7, [1, 2]), (7, [])] (by decide)
      (by decide) rfl⟩

/-! ## Closed form of `sm_output` and the round trip -/

theorem foldlM_range_append (body : List Char → Nat → Option (List Char)) (f : Nat → List Char)
    (n : Nat) (h : ∀ out i, i < n → body out i = some (out ++ f i)) (out : List Char) :
    (List.range n).foldlM body out = some (out ++ (List.range n).flatMap f) := by
  induction n with
  | zero => simp
  | succ n ih =>
    rw [foldlM_range_succ, ih (fun out i hi => h out i (Nat.lt_succ_of_lt hi)),
      Option.some_bind, h _ n (Nat.lt_succ_self n), List.range_succ, List.flatMap_append]
    simp

theorem outputEntries_eq (g : ℚ → List Char) (r : SROW) (out : List Char)
    (hc : r.col.length = r.nnz) (hv : r.val.length = r.nnz) :
    outputEntries g r out = some (out ++ entriesText g r) := by
  unfold outputEntries entriesText
  apply foldlM_range_append
  intro out j hj
  rw [getElem?_eq_some_getD r.col j 0 (by omega), getElem?_eq_some_getD r.val j 0 (by omega)]
  simp only [List.append_assoc]

theorem sm_output_eq (g : ℚ → List Char) (M : SMAT) (hM : M.valid) :
    sm_output g M = some
      (['S', 'p', 'a', 'r', 's', 'e', 'M', 'a', 't', 'r', 'i', 'x', ':', ' '] ++ dec M.m
        ++ [' ', 'b', 'y', ' '] ++ dec M.n ++ [nl] ++ (List.range M.m).flatMap (rowText g M)) := by
  unfold sm_output
  apply foldlM_range_append
  intro out i hi
  obtain ⟨hrow, hmem⟩ := rowAt_of_lt M i (by rw [hM.1]; exact hi)
  obtain ⟨h1, h2, _⟩ := hM.2 _ hmem
  rw [hrow]
  simp only [outputEntries_eq g (M.rowAt i) _ h1 h2, rowText, List.append_assoc]

theorem flatMap_map_eq {f : Nat → List Char} {h : Nat × List Nat → List Char}
    {p : Nat → Nat × List Nat} (l : List Nat) (hf : ∀ i ∈ l, f i = h (p i)) :
    l.flatMap f = (l.map p).flatMap h := by
  induction l with
  | nil => rfl
  | cons a l ih =>
    rw [List.flatMap_cons, List.map_cons, List.flatMap_cons, hf a (List.mem_cons_self a l),
      ih (fun i hi => hf i (List.mem_cons_of_mem a hi))]

theorem rowText_dangling (g : ℚ → List Char) (M : SMAT) (i : Nat) (hz : (M.rowAt i).nnz = 0) :
    rowText g M i = renderLine (i, []) := by
  simp [rowText, renderLine, entriesText, hz]

theorem rowText_stored (g : ℚ → List Char) (M : SMAT) (i : Nat) (hz : (M.rowAt i).nnz ≠ 0) :
    ∃ X, rowText g M i
      = ['r', 'o', 'w', ' '] ++ dec i ++ ':' :: ' ' ::
          (dec ((M.rowAt i).col.getD 0 0) ++ ':' :: X) := by
  obtain ⟨k, hk⟩ : ∃ k, (M.rowAt i).nnz = k + 1 := ⟨(M.rowAt i).nnz - 1, by omega⟩
  refine ⟨g ((M.rowAt i).val.getD 0 0) ++ [' ']
    ++ (List.map Nat.succ (List.range k)).flatMap
        (fun j => dec ((M.rowAt i).col.getD j 0) ++ [':'] ++ g ((M.rowAt i).val.getD j 0) ++ [' '])
    ++ ['-', '1', nl], ?_⟩
  simp only [rowText, entriesText, hk, List.range_succ_eq_map, List.flatMap_cons]
  simp

theorem dangling_row_eq (n : Nat) (r : SROW) (hr : r.valid n) (hz : r.nnz = 0) :
    r = { nnz := 0, col := [], val := [] } := by
  obtain ⟨h1, h2, _⟩ := hr
  cases r with
  | mk nnz col val =>
    simp only at h1 h2 hz
    subst hz
    rw [List.length_eq_zero.1 h1, List.length_eq_zero.1 h2]

/-- The round trip succeeds on a matrix whose rows are all dangling. -/
theorem roundtrip_all_dangling (g : ℚ → List Char) (M : SMAT) (hM : M.valid)
    (hz : ∀ r ∈ M.row, r.nnz = 0) :
    ∃ t, sm_output g M = some t ∧ sm_input t = .ok M := by
  refine ⟨_, sm_output_eq g M hM, ?_⟩
  have hlines : (List.range M.m).flatMap (rowText g M)
      = ((List.range M.m).map (fun i => ((i, []) : Nat × List Nat))).flatMap renderLine := by
    apply flatMap_map_eq
    intro i hi
    have hlt : i < M.row.length := by rw [hM.1]; exact List.mem_range.1 hi
    exact rowText_dangling g M i (hz _ (rowAt_of_lt M i hlt).2)
  have hin := sm_input_render M.m M.n ((List.range M.m).map (fun i => ((i, []) : Nat × List Nat)))
    (by simp) (by simp)
  have hrow : M.row = List.replicate M.m { nnz := 0, col := [], val := [] } := by
    rw [List.eq_replicate_iff]
    exact ⟨hM.1, fun r hr => dangling_row_eq M.n r (hM.2 r hr) (hz r hr)⟩
  have hmap : ((List.range M.m).map (fun i => ((i, []) : Nat × List Nat))).map
      (fun l => rowOfCols l.2) = List.replicate M.m { nnz := 0, col := [], val := [] } := by
    rw [List.eq_replicate_iff]
    refine ⟨by simp, ?_⟩
    intro r hr
    simp only [List.map_map, List.mem_map, Function.comp] at hr
    obtain ⟨_, _, rfl⟩ := hr
    rfl
  have htext : ['S', 'p', 'a', 'r', 's', 'e', 'M', 'a', 't', 'r', 'i', 'x', ':', ' '] ++ dec M.m
      ++ [' ', 'b', 'y', ' '] ++ dec M.n ++ [nl] ++ (List.range M.m).flatMap (rowText g M)
      = renderInput M.m M.n ((List.range M.m).map (fun i => ((i, []) : Nat × List Nat))) := by
    unfold renderInput
    rw [hlines]
    simp
  rw [htext, hin, hmap, ← hrow]

theorem scanD_colon (X : List Char) : scanD (':' :: X) = none := by
  have h1 : isSpace ':' = false := by decide
  have h2 : Char.isDigit ':' = false := by decide
  simp [scanD, skipSpace, scanSign, scanDigits, h1, h2]

theorem readCols_colon (f c : Nat) (X : List Char) (buf : List Nat) (hb : 0 < buf.length) :
    readCols (f + 2) (' ' :: (dec c ++ ':' :: X)) buf 0 = .error Fault.fatal := by
  have hcol : Char.isDigit ':' = false := by decide
  simp [readCols, scanD_space, scanD_dec c ':' X hcol, scanD_colon, hb]

theorem inputRow_colon (label c : Nat) (X : List Char) (buf : List Nat) (rows : List SROW)
    (i : Nat) (ri : SROW) (hb : 0 < buf.length) (hi : rows[i]? = some ri) :
    inputRow (nl :: (['r', 'o', 'w', ' '] ++ dec label ++ ':' :: ' ' :: (dec c ++ ':' :: X)),
        buf, rows) i = .error Fault.fatal := by
  unfold inputRow
  simp only [scanRowLabel_render, hi, List.length_cons]
  rw [readCols_colon _ c X buf hb]

/-- The text written for a matrix with a stored entry is rejected by
`sm_input`: after the first column index it meets the colon of `col:value`. -/
theorem roundtrip_stored_entry (g : ℚ → List Char) (M : SMAT) (hM : M.valid)
    (hnz : ∃ r ∈ M.row, r.nnz ≠ 0) :
    ∃ t, sm_output g M = some t ∧ sm_input t = .error Fault.fatal := by
  refine ⟨_, sm_output_eq g M hM, ?_⟩
  have hP : ∃ i, i < M.m ∧ (M.rowAt i).nnz ≠ 0 := by
    obtain ⟨r, hr, hrz⟩ := hnz
    obtain ⟨i, hi, hri⟩ := List.getElem_of_mem hr
    refine ⟨i, by rw [← hM.1]; exact hi, ?_⟩
    have : M.rowAt i = r := by
      unfold SMAT.rowAt
      rw [List.getD_eq_getElem _ _ hi, hri]
    rw [this]
    exact hrz
  obtain ⟨i0, h0lt, h0nz, hmin⟩ : ∃ i0, i0 < M.m ∧ (M.rowAt i0).nnz ≠ 0 ∧
      ∀ i, i < i0 → (M.rowAt i).nnz = 0 := by
    refine ⟨Nat.find hP, (Nat.find_spec hP).1, (Nat.find_spec hP).2, ?_⟩
    intro i hi
    by_contra hne
    exact Nat.find_min hP hi ⟨lt_trans hi (Nat.find_spec hP).1, hne⟩
  obtain ⟨tail, htail⟩ : ∃ tail, List.range M.m = List.range i0 ++ i0 :: tail := by
    obtain ⟨d, hd⟩ : ∃ d, M.m = i0 + (d + 1) := ⟨M.m - i0 - 1, by omega⟩
    rw [hd, List.range_add, List.range_succ_eq_map]
    exact ⟨List.map (fun x => i0 + x) (List.map Nat.succ (List.range d)), by simp⟩
  obtain ⟨X, hX⟩ := rowText_stored g M i0 h0nz
  have hmem := (rowAt_of_lt M i0 (by rw [hM.1]; exact h0lt)).2
  have hn : 0 < M.n := by
    obtain ⟨h1, _, h3⟩ := hM.2 _ hmem
    have hpos : 0 < (M.rowAt i0).col.length := by omega
    have := h3 _ (List.getElem_mem hpos)
    omega
  have hlines : (List.range i0).flatMap (rowText g M)
      = ((List.range i0).map (fun i => ((i, []) : Nat × List Nat))).flatMap renderLine := by
    apply flatMap_map_eq
    intro i hi
    exact rowText_dangling g M i (hmin i (List.mem_range.1 hi))
  have htext : ['S', 'p', 'a', 'r', 's', 'e', 'M', 'a', 't', 'r', 'i', 'x', ':', ' '] ++ dec M.m
      ++ [' ', 'b', 'y', ' '] ++ dec M.n ++ [nl] ++ (List.range M.m).flatMap (rowText g M)
      = ['S', 'p', 'a', 'r', 's', 'e', 'M', 'a', 't', 'r', 'i', 'x', ':', ' '] ++ dec M.m
        ++ [' ', 'b', 'y', ' '] ++ dec M.n ++ nl ::
          (((List.range i0).map (fun i => ((i, []) : Nat × List Nat))).flatMap renderLine
            ++ (['r', 'o', 'w', ' '] ++ dec i0 ++ ':' :: ' ' ::
              (dec ((M.rowAt i0).col.getD 0 0) ++ ':' :: (X ++ tail.flatMap (rowText g M))))) := by
    rw [htail, List.flatMap_append, List.flatMap_cons, hlines, hX]
    simp
  obtain ⟨buf, hbuf, hfold⟩ := inputRows_render M.n M.m
    ((List.range i0).map (fun i => ((i, []) : Nat × List Nat))) (by simp)
    (by simp; omega)
    (['r', 'o', 'w', ' '] ++ dec i0 ++ ':' :: ' ' ::
      (dec ((M.rowAt i0).col.getD 0 0) ++ ':' :: (X ++ tail.flatMap (rowText g M))))
    i0 (by simp)
  have hdrop : ((List.range i0).map (fun i => ((i, []) : Nat × List Nat))).drop i0 = [] := by
    apply List.drop_eq_nil_of_le
    simp
  rw [hdrop, List.flatMap_nil, List.nil_append] at hfold
  have hrows : i0 < ((((List.range i0).map (fun i => ((i, []) : Nat × List Nat))).take i0).map
      (fun l => rowOfCols l.2)
        ++ List.replicate (M.m - i0) ({ nnz := 0, col := [], val := [] } : SROW)).length := by
    simp
    omega
  rw [htext]
  unfold sm_input
  rw [scanHeader_render]
  simp only [sm_new_eq]
  rw [htail, List.foldlM_append, hfold]
  simp only [bind, Except.bind, List.foldlM_cons]
  rw [inputRow_colon i0 _ _ buf _ i0 _ (by omega) (List.getElem?_eq_getElem hrows)]

/-- C14, counterexample. For the 1 by 1 binary matrix `oneEntry`, whatever
`%1.5g` prints for the value, `sm_output` writes
`SparseMatrix: 1 by 1 / row 0: 0:<value> -1`, and `sm_input` reads the column
`0`, meets the colon and terminates with a fatal error: the round trip does not
succeed. -/
theorem roundtrip_fails_on_oneEntry :
    oneEntry.valid ∧ oneEntry.binary ∧
      ∀ g : ℚ → List Char,
        sm_output g oneEntry
            = some ("SparseMatrix: 1 by 1".toList ++ nl :: "row 0: 0:".toList ++ g 1
                ++ " -1".toList ++ [nl]) ∧
          ∃ t, sm_output g oneEntry = some t ∧ sm_input t = .error Fault.fatal :=
  ⟨by decide, by simp [SMAT.binary, oneEntry],
    fun g => ⟨by simp [sm_output, outputEntries, oneEntry, dec, List.range_succ]; rfl,
      roundtrip_stored_entry g oneEntry (by decide) ⟨_, List.mem_singleton.2 rfl, by decide⟩⟩⟩

/-- C14 as amended. For every valid matrix, `sm_output` writes a text on which
`sm_input` returns the same matrix (same dimensions, every row with its empty
column sequence) when no row has a stored entry, and terminates with a fatal
error when some row has a stored entry, because entries are written as
`col:value`. -/
theorem roundtrip_iff_no_stored_entry (g : ℚ → List Char) (M : SMAT) (hM : M.valid) :
    ∃ t, sm_output g M = some t ∧
      ((∀ r ∈ M.row, r.nnz = 0) → sm_input t = .ok M) ∧
      ((∃ r ∈ M.row, r.nnz ≠ 0) → sm_input t = .error Fault.fatal) := by
  refine ⟨_, sm_output_eq g M hM, ?_, ?_⟩
  · intro hz
    obtain ⟨t, ht, hin⟩ := roundtrip_all_dangling g M hM hz
    rw [sm_output_eq g M hM] at ht
    rw [Option.some.inj ht]
    exact hin
  · intro hnz
    obtain ⟨t, ht, hin⟩ := roundtrip_stored_entry g M hM hnz
    rw [sm_output_eq g M hM] at ht
    rw [Option.some.inj ht]
    exact hin

/-- Witness of the amended C14 on `wideMatrix`, whose only row is dangling. -/
theorem roundtrip_iff_no_stored_entry_witness :
    wideMatrix.valid ∧
      ∃ t, sm_output (fun _ => ['1']) wideMatrix = some t ∧
        ((∀ r ∈ wideMatrix.row, r.nnz = 0) → sm_input t = .ok wideMatrix) ∧
        ((∃ r ∈ wideMatrix.row, r.nnz ≠ 0) → sm_input t = .error Fault.fatal) :=
  ⟨by decide, roundtrip_iff_no_stored_entry (fun _ => ['1']) wideMatrix (by decide)⟩

/-! ## The routines in double arithmetic

Evaluations of the double reading on concrete inputs.  Every input value is a
binary64 value (`allDoubles`), so the vector and matrix handed to the routines
are the ones written. -/

/-- The two-node scenario in doubles: every operation is exact there, so the
double reading returns the same `[1/4, 3/4]` as the exact reading. -/
theorem two_node_scenario_dbl :
    sm_toHD twoNode.toDbl = some twoNode.toDbl ∧
      v_scoreD (VEC.toDbl ⟨2, [1 / 2, 1 / 2]⟩) twoNode.toDbl 1
        = some (VEC.toDbl ⟨2, [1 / 4, 3 / 4]⟩) ∧
      allDoubles [1 / 4, 3 / 4] := by
  decide!

end PageRank
